import Mathlib

/-!
A verification development for a register-allocation pipeline
(liveness analysis → interference graph → backtracking graph colouring).

Python dictionaries are modelled as association lists that preserve
insertion order (as Python dicts do); Python sets are modelled as
duplicate-free lists built by idempotent insertion (`setAdd`), with
membership as the set semantics.  Statements about sets are phrased via
`List.toFinset`.  A Python `KeyError` is modelled by returning `none`.
-/

/-- Insertion-order-preserving lookup in an association list,
modelling Python `dict` access / `dict.get`. -/
def dictGet {β : Type} : List (String × β) → String → Option β
  | [], _ => none
  | (k, v) :: rest, x => if k = x then some v else dictGet rest x

/-- Insertion-order-preserving update, modelling Python `d[k] = v`:
an existing key keeps its position, a new key is appended. -/
def dictSet {β : Type} : List (String × β) → String → β → List (String × β)
  | [], k, v => [(k, v)]
  | (k', v') :: rest, k, v =>
    if k' = k then (k, v) :: rest else (k', v') :: dictSet rest k v

/-- Deletion of a key, modelling Python `del d[k]`. -/
def dictDel {β : Type} : List (String × β) → String → List (String × β)
  | [], _ => []
  | (k', v') :: rest, k => if k' = k then rest else (k', v') :: dictDel rest k

/-- Idempotent insertion, modelling Python `set.add`. -/
def setAdd (l : List String) (x : String) : List String :=
  if x ∈ l then l else l ++ [x]

/-- Python set construction `set(iterable)`. -/
def pySet (l : List String) : List String := l.foldl setAdd []

/-- Python set union `a | b` (membership semantics). -/
def setUnion (a b : List String) : List String := b.foldl setAdd a

/-- Python set difference `a - b` (membership semantics). -/
def setDiff (a b : List String) : List String :=
  a.filter (fun x => !(b.contains x))

/-- `liveness.is_var`: `tok` matches a variable name of the IR.
Mirrors `tok.startswith("t") and tok[1:].isdigit()` (a temporary) or
`len(tok) == 1 and tok.islower() and tok != "t"` (a named variable). -/
def is_var (tok : String) : Bool :=
  (match tok.data with
   | 't' :: c :: cs => (c :: cs).all Char.isDigit
   | _ => false)
  ||
  (match tok.data with
   | [c] => c.isLower && c != 't'
   | _ => false)

/-- `intermediate.Operation`: one three-address instruction.
Operand slots are optional, mirroring the Python `None` defaults. -/
structure Operation where
  destination : String
  operand1 : Option String
  operator : Option String := none
  operand2 : Option String := none
  unary_neg : Bool := false
deriving DecidableEq

instance : Inhabited Operation := ⟨⟨"", none, none, none, false⟩⟩

/-- `liveness.defs`: the set of variables written by an instruction,
always the singleton of the destination. -/
def defs (op : Operation) : List String := [op.destination]

/-- `liveness.uses`: the operand slots that are populated (`is not None`)
and classified as variables by `is_var`. -/
def uses (op : Operation) : List String :=
  let u : List String := []
  let u := match op.operand1 with
    | some s => if is_var s then setAdd u s else u
    | none => u
  match op.operand2 with
    | some s => if is_var s then setAdd u s else u
    | none => u

/-- `liveness.compute_liveness`: the backward one-pass liveness analysis.
Returns `(live_before, live_after)` aligned with the instruction list.
The Python loop walks bottom-to-top carrying `current_live`; here the
suffix is processed first and `current_live` is the head of its
`live_before` (or `live_out` for the empty suffix). -/
def compute_liveness : List Operation → List String →
    List (List String) × List (List String)
  | [], _ => ([], [])
  | op :: rest, live_out =>
    let p := compute_liveness rest live_out
    let after := p.1.headD live_out
    let before := setUnion (uses op) (setDiff after (defs op))
    (before :: p.1, after :: p.2)

/-- Lexicographic (code-point) comparison of character lists, the order
Python uses to compare strings.  (The library order on `String` is not
kernel-reducible, so concrete computations go through this function;
`strLtB_iff` identifies it with the library order.) -/
def charListLt : List Char → List Char → Bool
  | [], [] => false
  | [], _ :: _ => true
  | _ :: _, [] => false
  | c :: cs, d :: ds => if c < d then true else if d < c then false else charListLt cs ds

/-- Python `a < b` on strings. -/
def strLtB (a b : String) : Bool := charListLt a.data b.data

/-- Python `a <= b` on strings (total order, so `¬ (b < a)`). -/
def strLe (a b : String) : Prop := strLtB b a = false

instance : DecidableRel strLe := fun _ _ => instDecidableEqBool _ _

-- ## The interference graph (interference.py)

/-- `InterferenceGraph`: `nodes` is the adjacency dictionary
(variable → set of neighbours, in insertion order), `assignments` the
register map (variable → colour). -/
structure InterferenceGraph where
  nodes : List (String × List String)
  assignments : List (String × Nat)
deriving DecidableEq

/-- The node names, in dictionary (insertion) order. -/
def InterferenceGraph.keys (g : InterferenceGraph) : List String :=
  g.nodes.map Prod.fst

/-- `InterferenceGraph.__init__`: one empty neighbour set per variable,
no assignments. -/
def InterferenceGraph.make (vs : List String) : InterferenceGraph :=
  ⟨vs.map (fun v => (v, [])), []⟩

/-- `get_neighbors`: `self.nodes.get(var, set())`. -/
def InterferenceGraph.get_neighbors (g : InterferenceGraph) (v : String) : List String :=
  (dictGet g.nodes v).getD []

/-- One Python statement `self.nodes[u].add(v)`: `none` models the
`KeyError` raised when `u` is not a node. -/
def adjAdd (nodes : List (String × List String)) (u v : String) :
    Option (List (String × List String)) :=
  match dictGet nodes u with
  | some s => some (dictSet nodes u (setAdd s v))
  | none => none

/-- `add_edge`: for `u ≠ v`, add `v` to `u`'s neighbour set and then `u`
to `v`'s; either dictionary access can raise `KeyError` (here `none`). -/
def InterferenceGraph.add_edge (g : InterferenceGraph) (u v : String) :
    Option InterferenceGraph :=
  if u ≠ v then
    match adjAdd g.nodes u v with
    | some n1 =>
      match adjAdd n1 v u with
      | some n2 => some { g with nodes := n2 }
      | none => none
    | none => none
  else some g

/-- `assign`: `self.assignments[var] = color`. -/
def InterferenceGraph.assign (g : InterferenceGraph) (v : String) (c : Nat) :
    InterferenceGraph :=
  { g with assignments := dictSet g.assignments v c }

/-- `unassign`: `if var in self.assignments: del self.assignments[var]`. -/
def InterferenceGraph.unassign (g : InterferenceGraph) (v : String) :
    InterferenceGraph :=
  if (dictGet g.assignments v).isSome then
    { g with assignments := dictDel g.assignments v }
  else g

/-- The first element of `keys` missing from `assignments`. -/
def firstUnassigned (assignments : List (String × Nat)) : List String → Option String
  | [] => none
  | v :: rest =>
    if dictGet assignments v = none then some v else firstUnassigned assignments rest

/-- `get_unassigned_variable`: the first node (dictionary insertion
order) not yet in `assignments`, or `None`. -/
def InterferenceGraph.get_unassigned_variable (g : InterferenceGraph) : Option String :=
  firstUnassigned g.assignments g.keys

/-- `is_safe`: no neighbour of `var` currently carries `color`. -/
def InterferenceGraph.is_safe (g : InterferenceGraph) (v : String) (c : Nat) : Bool :=
  (g.get_neighbors v).all (fun u => dictGet g.assignments u != some c)

-- ## The backtracking allocator (interference.allocate_registers)

/-- The colour loop of `allocate_registers`: try the colours `cs` in
order for variable `v`; `next` is the recursive call made after a
tentative assignment.  Mirrors `for colour in range(num_regs):
if is_safe: assign; if recursive call: return True; unassign`. -/
def tryColours (next : InterferenceGraph → Bool × InterferenceGraph) (v : String) :
    List Nat → InterferenceGraph → Bool × InterferenceGraph
  | [], g => (false, g)
  | c :: cs, g =>
    if g.is_safe v c then
      match next (g.assign v c) with
      | (true, g') => (true, g')
      | (false, g') => tryColours next v cs (g'.unassign v)
    else tryColours next v cs g

/-- `allocate_registers`, with an explicit recursion-depth budget.  Each
recursive call of the Python function has strictly fewer unassigned
nodes, so any budget above the node count makes this the Python
function; the fuel-independence theorems below make that precise. -/
def allocateFuel (num_regs : Nat) : Nat → InterferenceGraph → Bool × InterferenceGraph
  | 0, g => (false, g)
  | fuel + 1, g =>
    match g.get_unassigned_variable with
    | none => (true, g)
    | some v =>
      tryColours (fun g' => allocateFuel num_regs fuel g') v (List.range num_regs) g

/-- `allocate_registers(graph, num_regs)`: the recursion depth is bounded
by the number of unassigned nodes, so a budget of `nodes.length + 1` is
never exhausted. -/
def allocate_registers (g : InterferenceGraph) (num_regs : Nat) :
    Bool × InterferenceGraph :=
  allocateFuel num_regs (g.nodes.length + 1) g

-- ## Basic lemmas about the set/dict models

-- ## Graph construction (interference.build_interference_graph)

/-- `intermediate.IntermediateCode`, restricted to the fields
`build_interference_graph` reads: the instruction list, the `live:` list,
and the cached liveness tables. -/
structure IntermediateCode where
  oplist : List Operation
  live_out : List String
  live_before : List (List String)
  live_after : List (List String)

/-- `compute_liveness_info`: the cached tables are exactly
`compute_liveness(oplist, set(live_out))`. -/
def livenessComputed (code : IntermediateCode) : Prop :=
  (code.live_before, code.live_after) =
    compute_liveness code.oplist (pySet code.live_out)

/-- One operand slot of step 1 of `build_interference_graph`:
`if op.operandN: all_vars.add(op.operandN)` — a truthiness test, which
skips both `None` and the empty string. -/
def optSlot (acc : List String) (o : Option String) : List String :=
  match o with
  | some s => if s.isEmpty then acc else setAdd acc s
  | none => acc

/-- The body of step 1 of `build_interference_graph` for one instruction:
add the destination and the truthy operand slots to `all_vars`. -/
def opAllVars (acc : List String) (op : Operation) : List String :=
  optSlot (optSlot (setAdd acc op.destination) op.operand1) op.operand2

/-- `all_vars`: `set(code.live_out)` extended over the instruction list. -/
def allVars (code : IntermediateCode) : List String :=
  code.oplist.foldl opAllVars (pySet code.live_out)

/-- `valid_vars = sorted([v for v in all_vars if is_var(v)])`. -/
def valid_vars (code : IntermediateCode) : List String :=
  List.insertionSort strLe ((allVars code).filter is_var)

/-- The inner loop `for j in range(i+1, n): add_edge(l[i], l[j])`. -/
def addPairTail : InterferenceGraph → String → List String →
    Option InterferenceGraph
  | g, _, [] => some g
  | g, x, y :: ys =>
    match g.add_edge x y with
    | some g' => addPairTail g' x ys
    | none => none

/-- The double loop adding an edge between every pair of distinct
positions of the enumerated live set. -/
def addCliqueEdges : InterferenceGraph → List String → Option InterferenceGraph
  | g, [] => some g
  | g, x :: xs =>
    match addPairTail g x xs with
    | some g' => addCliqueEdges g' xs
    | none => none

/-- The loop `for live_set in code.live_after: ...`. -/
def addAllCliques : InterferenceGraph → List (List String) →
    Option InterferenceGraph
  | g, [] => some g
  | g, s :: ss =>
    match addCliqueEdges g s with
    | some g' => addAllCliques g' ss
    | none => none

/-- `build_interference_graph(code)`: nodes from `valid_vars`, clique
edges for `live_before[0]` (when the table is non-empty, mirroring the
truthiness test `if code.live_before:`), then clique edges for every
`live_after[i]`.  A `KeyError` from `add_edge` propagates as `none`. -/
def build_interference_graph (code : IntermediateCode) :
    Option InterferenceGraph :=
  let graph := InterferenceGraph.make (valid_vars code)
  match
    (match code.live_before with
     | [] => some graph
     | entry :: _ => addCliqueEdges graph entry) with
  | some g1 => addAllCliques g1 code.live_after
  | none => none

/-- An arbitrary sequence of `add_edge` calls, each propagating failure. -/
def applyEdges : InterferenceGraph → List (String × String) →
    Option InterferenceGraph
  | g, [] => some g
  | g, (u, v) :: rest =>
    match g.add_edge u v with
    | some g' => applyEdges g' rest
    | none => none

-- ## Instrumented allocator (records each branching step)

/-- The colour loop of `allocTr`, threading the branching-step log. -/
def tryColoursTr
    (next : InterferenceGraph →
      (Bool × InterferenceGraph) × List (InterferenceGraph × String))
    (v : String) :
    List Nat → InterferenceGraph →
      (Bool × InterferenceGraph) × List (InterferenceGraph × String)
  | [], g => ((false, g), [])
  | c :: cs, g =>
    if g.is_safe v c then
      match next (g.assign v c) with
      | ((true, g'), tr) => ((true, g'), tr)
      | ((false, g'), tr) =>
        let r := tryColoursTr next v cs (g'.unassign v)
        (r.1, tr ++ r.2)
    else tryColoursTr next v cs g

/-- `allocate_registers` instrumented to log, at every branching step,
the graph state and the node selected for colouring.  The computation is
the one of `allocateFuel` (theorem `allocTr_fst`). -/
def allocTr (num_regs : Nat) : Nat → InterferenceGraph →
    (Bool × InterferenceGraph) × List (InterferenceGraph × String)
  | 0, g => ((false, g), [])
  | fuel + 1, g =>
    match g.get_unassigned_variable with
    | none => ((true, g), [])
    | some v =>
      let r := tryColoursTr (fun g' => allocTr num_regs fuel g') v
        (List.range num_regs) g
      (r.1, (g, v) :: r.2)

/-- The branching-step log of a top-level `allocate_registers` call. -/
def allocate_trace (g : InterferenceGraph) (num_regs : Nat) :
    List (InterferenceGraph × String) :=
  (allocTr num_regs (g.nodes.length + 1) g).2

-- ## Graph predicates

/-- No variable is its own neighbour. -/
def EdgeIrrefl (g : InterferenceGraph) : Prop :=
  ∀ v, v ∉ g.get_neighbors v

/-- `u` adjacent to `v` implies `v` adjacent to `u`. -/
def EdgeSymm (g : InterferenceGraph) : Prop :=
  ∀ u v, u ∈ g.get_neighbors v → v ∈ g.get_neighbors u

/-- No two adjacent assigned variables share a colour. -/
def ConflictFree (g : InterferenceGraph) : Prop :=
  ∀ v u cv cu, u ∈ g.get_neighbors v →
    dictGet g.assignments v = some cv → dictGet g.assignments u = some cu →
    cv ≠ cu

/-- Every assigned colour is in `{0, …, k-1}`. -/
def ColoursBelow (g : InterferenceGraph) (k : Nat) : Prop :=
  ∀ v c, dictGet g.assignments v = some c → c < k

/-- A total proper `k`-colouring of the graph's nodes. -/
def IsProperColouring (g : InterferenceGraph) (k : Nat) (f : String → Nat) :
    Prop :=
  (∀ v ∈ g.keys, f v < k) ∧ ∀ v u, u ∈ g.get_neighbors v → f u ≠ f v

/-- A proper `k`-colouring exists. -/
def Colourable (g : InterferenceGraph) (k : Nat) : Prop :=
  ∃ f, IsProperColouring g k f

/-- The number of nodes not yet assigned a colour. -/
def unassignedCount (g : InterferenceGraph) : Nat :=
  (g.keys.filter (fun v => (dictGet g.assignments v).isNone)).length

/-- Saturation: the number of distinct colours already used by the
assigned neighbours of `v`. -/
def saturation (g : InterferenceGraph) (v : String) : Nat :=
  (((g.get_neighbors v).filterMap (fun u => dictGet g.assignments u)).dedup).length

/-- Degree: total neighbour count, assigned or not. -/
def degree (g : InterferenceGraph) (v : String) : Nat :=
  (g.get_neighbors v).length

/-- The DSATUR selection rule: the selected node is unassigned and, among
the unassigned nodes, maximises saturation with ties broken by degree. -/
def DsaturChoice (g : InterferenceGraph) (v : String) : Prop :=
  dictGet g.assignments v = none ∧
  ∀ u ∈ g.keys, dictGet g.assignments u = none →
    saturation g u < saturation g v ∨
    (saturation g u = saturation g v ∧ degree g u ≤ degree g v)

instance decidableDsaturChoice (g : InterferenceGraph) (v : String) :
    Decidable (DsaturChoice g v) := by
  unfold DsaturChoice
  infer_instance

/-- One comparison step of `GraphColouring._select_next_variable`
(graphcolor.py): keep the incumbent unless the candidate's
`(saturation, degree)` score is strictly greater lexicographically;
the initial score `(-1, -1)` loses to every node. -/
def selectStep (g : InterferenceGraph) (best : Option String) (v : String) :
    Option String :=
  match best with
  | none => some v
  | some b =>
    if saturation g b < saturation g v ∨
        (saturation g b = saturation g v ∧ degree g b < degree g v) then
      some v
    else some b

/-- `GraphColouring._select_next_variable`: scan the uncoloured nodes and
return the first with lexicographically maximal (saturation, degree). -/
def selectNextVariable (g : InterferenceGraph) : Option String :=
  (g.keys.filter (fun v => (dictGet g.assignments v).isNone)).foldl
    (selectStep g) none

-- ## Concrete inputs used by witnesses and counterexamples

/-- A triangle of mutual interference on `a`, `b`, `c` (spec scenario C),
in the state `build_interference_graph` would produce. -/
def triangleGraph : InterferenceGraph :=
  ⟨[("a", ["b", "c"]), ("b", ["a", "c"]), ("c", ["a", "b"])], []⟩

/-- Nodes `a`, `b`, `c` with the single edge `a–c`: after `a` is
coloured, the unassigned node `c` has saturation 1 while `b` has
saturation 0, yet the allocator's second branching step selects `b`. -/
def singleEdgeGraph : InterferenceGraph :=
  ⟨[("a", ["c"]), ("b", []), ("c", ["a"])], []⟩

/-- Spec scenario A: `a = 1`, `b = a + 1`, `live: b`. -/
def scenarioAOps : List Operation :=
  [⟨"a", some "1", none, none, false⟩, ⟨"b", some "a", some "+", some "1", false⟩]

/-- Scenario A packaged with its computed liveness tables. -/
def scenarioACode : IntermediateCode :=
  { oplist := scenarioAOps
    live_out := ["b"]
    live_before := (compute_liveness scenarioAOps (pySet ["b"])).1
    live_after := (compute_liveness scenarioAOps (pySet ["b"])).2 }

/-- A block whose `live:` line names `5`, which `is_var` rejects:
`a = b`, `live: a, 5`.  The name `5` then appears in `live_after[0]`
beside `a` while not being a node. -/
def badLiveOutCode : IntermediateCode :=
  { oplist := [⟨"a", some "b", none, none, false⟩]
    live_out := ["a", "5"]
    live_before :=
      (compute_liveness [⟨"a", some "b", none, none, false⟩] (pySet ["a", "5"])).1
    live_after :=
      (compute_liveness [⟨"a", some "b", none, none, false⟩] (pySet ["a", "5"])).2 }

theorem mem_setAdd {l : List String} {x y : String} :
    y ∈ setAdd l x ↔ y ∈ l ∨ y = x := by
  unfold setAdd
  split
  · constructor
    · exact Or.inl
    · rintro (h | rfl) <;> [exact h; assumption]
  · simp [or_comm]

theorem mem_setUnion {a b : List String} {x : String} :
    x ∈ setUnion a b ↔ x ∈ a ∨ x ∈ b := by
  unfold setUnion
  induction b generalizing a with
  | nil => simp
  | cons y ys ih =>
    simp only [List.foldl_cons, ih, mem_setAdd, List.mem_cons]
    tauto

theorem mem_setDiff {a b : List String} {x : String} :
    x ∈ setDiff a b ↔ x ∈ a ∧ x ∉ b := by
  unfold setDiff
  simp [List.mem_filter, List.contains_iff_exists_mem_beq]

theorem mem_pySet {l : List String} {x : String} :
    x ∈ pySet l ↔ x ∈ l := by
  unfold pySet
  have : ∀ a, x ∈ l.foldl setAdd a ↔ x ∈ a ∨ x ∈ l := fun a => mem_setUnion
  simp [this]

theorem mem_uses {op : Operation} {x : String} :
    x ∈ uses op ↔
      ((op.operand1 = some x ∨ op.operand2 = some x) ∧ is_var x = true) := by
  unfold uses
  rcases op with ⟨d, o1, o, o2, n⟩
  rcases o1 with _ | s1 <;> rcases o2 with _ | s2 <;> simp only []
  · simp
  · by_cases h2 : is_var s2 <;> simp [h2, mem_setAdd]
    · constructor
      · rintro rfl; simp_all
      · rintro ⟨rfl, _⟩; rfl
    · rintro rfl; simp_all
  · by_cases h1 : is_var s1 <;> simp [h1, mem_setAdd]
    · constructor
      · rintro rfl; simp_all
      · rintro ⟨rfl, _⟩; rfl
    · rintro rfl; simp_all
  · by_cases h1 : is_var s1 <;> by_cases h2 : is_var s2 <;>
      simp [h1, h2, mem_setAdd]
    · constructor
      · rintro (rfl | rfl) <;> simp_all
      · rintro ⟨rfl | rfl, _⟩ <;> simp_all
    · constructor
      · rintro rfl; simp_all
      · rintro ⟨rfl | rfl, _⟩ <;> simp_all
    · constructor
      · rintro rfl; simp_all
      · rintro ⟨rfl | rfl, _⟩ <;> simp_all
    · rintro (rfl | rfl) <;> simp_all

-- ## Structure of the liveness tables

theorem compute_liveness_length (ops : List Operation) (lo : List String) :
    (compute_liveness ops lo).1.length = ops.length ∧
    (compute_liveness ops lo).2.length = ops.length := by
  induction ops with
  | nil => simp [compute_liveness]
  | cons op rest ih => simp [compute_liveness, ih.1, ih.2]

theorem compute_liveness_last (ops : List Operation) (lo : List String)
    (h : ops ≠ []) :
    (compute_liveness ops lo).2.getD (ops.length - 1) [] = lo := by
  induction ops with
  | nil => exact absurd rfl h
  | cons op rest ih =>
    rcases rest with _ | ⟨op2, rest2⟩
    · simp [compute_liveness]
    · have hlen := (compute_liveness_length (op2 :: rest2) lo).1
      have := ih (by simp)
      simp only [compute_liveness] at this ⊢
      simpa [List.length_cons, Nat.succ_sub_one] using this

theorem compute_liveness_after_eq (ops : List Operation) (lo : List String)
    (i : Nat) (h : i + 1 < ops.length) :
    (compute_liveness ops lo).2.getD i [] =
      (compute_liveness ops lo).1.getD (i + 1) [] := by
  induction ops generalizing i with
  | nil => simp at h
  | cons op rest ih =>
    rcases i with _ | i
    · rcases rest with _ | ⟨op2, rest2⟩
      · simp at h
      · simp [compute_liveness]
    · have hi : i + 1 < rest.length := by
        simpa [Nat.succ_lt_succ_iff] using h
      simpa [compute_liveness] using ih i hi

-- ## The computable string order agrees with the library order

theorem charListLt_iff_lex (l₁ l₂ : List Char) :
    charListLt l₁ l₂ = true ↔ List.Lex (· < ·) l₁ l₂ := by
  induction l₁ generalizing l₂ with
  | nil =>
    cases l₂ with
    | nil => simp [charListLt]
    | cons d ds => simpa [charListLt] using List.Lex.nil
  | cons c cs ih =>
    cases l₂ with
    | nil => simp [charListLt]
    | cons d ds =>
      by_cases hcd : c < d
      · simpa [charListLt, hcd] using List.Lex.rel hcd
      · by_cases hdc : d < c
        · have hv : charListLt (c :: cs) (d :: ds) = false := by
            simp [charListLt, hcd, hdc]
          rw [hv]
          simp only [Bool.false_eq_true, false_iff]
          intro hlex
          cases hlex with
          | rel h => exact hcd h
          | cons h => exact absurd hdc (lt_irrefl _)
        · have hed : c = d := le_antisymm (not_lt.mp hdc) (not_lt.mp hcd)
          subst hed
          simp only [charListLt, lt_irrefl, if_false]
          rw [ih ds]
          constructor
          · exact List.Lex.cons
          · intro hlex
            cases hlex with
            | rel h => exact absurd h (lt_irrefl _)
            | cons h => exact h

theorem strLtB_iff (a b : String) : strLtB a b = true ↔ a < b := by
  rw [strLtB, charListLt_iff_lex]
  constructor
  · intro h
    rw [String.lt_iff_toList_lt]
    exact h
  · intro h
    rw [String.lt_iff_toList_lt] at h
    exact h

theorem strLe_iff (a b : String) : strLe a b ↔ a ≤ b := by
  unfold strLe
  rw [← Bool.not_eq_true, strLtB_iff]
  exact not_lt

theorem compute_liveness_before_eq (ops : List Operation) (lo : List String)
    (i : Nat) (h : i < ops.length) :
    (compute_liveness ops lo).1.getD i [] =
      setUnion (uses (ops.getD i default))
        (setDiff ((compute_liveness ops lo).2.getD i [])
          (defs (ops.getD i default))) := by
  induction ops generalizing i with
  | nil => simp at h
  | cons op rest ih =>
    rcases i with _ | i
    · simp [compute_liveness]
    · have hi : i < rest.length := by simpa [Nat.succ_lt_succ_iff] using h
      simpa [compute_liveness] using ih i hi

-- ## Dictionary lemmas

theorem dictGet_dictSet {β : Type} (A : List (String × β)) (k x : String) (v : β) :
    dictGet (dictSet A k v) x = if k = x then some v else dictGet A x := by
  induction A with
  | nil => simp [dictSet, dictGet]
  | cons p rest ih =>
    obtain ⟨k', v'⟩ := p
    by_cases hk : k' = k
    · subst hk
      by_cases hx : k' = x <;> simp [dictSet, dictGet, hx]
    · by_cases hx : k' = x
      · subst hx
        have : ¬ k = k' := fun h => hk h.symm
        simp [dictSet, dictGet, hk, this]
      · simp [dictSet, dictGet, hk, hx, ih]

theorem keys_dictSet {β : Type} (A : List (String × β)) (k : String) (v : β)
    (h : (dictGet A k).isSome) :
    (dictSet A k v).map Prod.fst = A.map Prod.fst := by
  induction A with
  | nil => simp [dictGet] at h
  | cons p rest ih =>
    obtain ⟨k', v'⟩ := p
    by_cases hk : k' = k
    · subst hk; simp [dictSet]
    · have hk' : ¬ k' = k := hk
      simp only [dictGet, if_neg hk] at h
      simp [dictSet, hk', ih h]

theorem dictDel_dictSet {β : Type} (A : List (String × β)) (k : String) (v : β)
    (h : dictGet A k = none) :
    dictDel (dictSet A k v) k = A := by
  induction A with
  | nil => simp [dictSet, dictDel]
  | cons p rest ih =>
    obtain ⟨k', v'⟩ := p
    by_cases hk : k' = k
    · subst hk; simp [dictGet] at h
    · simp only [dictGet, if_neg hk] at h
      simp [dictSet, dictDel, hk, ih h]

theorem dictGet_eq_none_iff {β : Type} (A : List (String × β)) (x : String) :
    dictGet A x = none ↔ x ∉ A.map Prod.fst := by
  induction A with
  | nil => simp [dictGet]
  | cons p rest ih =>
    obtain ⟨k, v⟩ := p
    have hstep : dictGet ((k, v) :: rest) x =
        if k = x then some v else dictGet rest x := rfl
    rw [hstep]
    by_cases hk : k = x
    · subst hk; simp
    · rw [if_neg hk, ih]
      simp only [List.map_cons, List.mem_cons]
      constructor
      · intro hnot h
        rcases h with h | h
        · exact hk h.symm
        · exact hnot h
      · intro hnot h
        exact hnot (Or.inr h)

theorem dictGet_mem {β : Type} {A : List (String × β)} {x : String} {b : β}
    (h : dictGet A x = some b) : (x, b) ∈ A := by
  induction A with
  | nil => simp [dictGet] at h
  | cons p rest ih =>
    obtain ⟨k, v⟩ := p
    have hstep : dictGet ((k, v) :: rest) x =
        if k = x then some v else dictGet rest x := rfl
    rw [hstep] at h
    by_cases hk : k = x
    · rw [if_pos hk] at h
      obtain rfl := Option.some.inj h
      subst hk
      exact List.mem_cons_self _ _
    · rw [if_neg hk] at h
      exact List.mem_cons_of_mem _ (ih h)

theorem firstUnassigned_eq_none (A : List (String × Nat)) (l : List String) :
    firstUnassigned A l = none ↔ ∀ v ∈ l, dictGet A v ≠ none := by
  induction l with
  | nil => simp [firstUnassigned]
  | cons x xs ih =>
    by_cases hx : dictGet A x = none <;> simp [firstUnassigned, hx, ih]

theorem firstUnassigned_eq_some (A : List (String × Nat)) (l : List String)
    (v : String) (h : firstUnassigned A l = some v) :
    dictGet A v = none ∧
      ∃ l₁ l₂, l = l₁ ++ v :: l₂ ∧ ∀ u ∈ l₁, dictGet A u ≠ none := by
  induction l with
  | nil => simp [firstUnassigned] at h
  | cons x xs ih =>
    by_cases hx : dictGet A x = none
    · simp only [firstUnassigned, if_pos hx, Option.some.injEq] at h
      subst h
      exact ⟨hx, [], xs, rfl, by simp⟩
    · simp only [firstUnassigned, if_neg hx] at h
      obtain ⟨h1, l₁, l₂, hsplit, hall⟩ := ih h
      refine ⟨h1, x :: l₁, l₂, by simp [hsplit], ?_⟩
      intro u hu
      rcases List.mem_cons.mp hu with rfl | hu
      · exact hx
      · exact hall u hu

-- ## Graph method lemmas

theorem assign_nodes (g : InterferenceGraph) (v : String) (c : Nat) :
    (g.assign v c).nodes = g.nodes := rfl

theorem unassign_nodes (g : InterferenceGraph) (v : String) :
    (g.unassign v).nodes = g.nodes := by
  unfold InterferenceGraph.unassign
  split <;> rfl

theorem assign_keys (g : InterferenceGraph) (v : String) (c : Nat) :
    (g.assign v c).keys = g.keys := rfl

theorem unassign_keys (g : InterferenceGraph) (v : String) :
    (g.unassign v).keys = g.keys := by
  unfold InterferenceGraph.keys
  rw [unassign_nodes]

theorem get_neighbors_assign (g : InterferenceGraph) (v w : String) (c : Nat) :
    (g.assign v c).get_neighbors w = g.get_neighbors w := rfl

theorem get_neighbors_unassign (g : InterferenceGraph) (v w : String) :
    (g.unassign v).get_neighbors w = g.get_neighbors w := by
  unfold InterferenceGraph.get_neighbors
  rw [unassign_nodes]

theorem assign_assignments (g : InterferenceGraph) (v : String) (c : Nat) :
    (g.assign v c).assignments = dictSet g.assignments v c := rfl

theorem unassign_assign (g : InterferenceGraph) (v : String) (c : Nat)
    (h : dictGet g.assignments v = none) :
    (g.assign v c).unassign v = g := by
  obtain ⟨nodes, A⟩ := g
  unfold InterferenceGraph.unassign InterferenceGraph.assign
  simp only [dictGet_dictSet, if_pos rfl, Option.isSome_some, if_true]
  rw [dictDel_dictSet _ _ _ h]

theorem get_unassigned_some (g : InterferenceGraph) (v : String)
    (h : g.get_unassigned_variable = some v) :
    v ∈ g.keys ∧ dictGet g.assignments v = none := by
  obtain ⟨h1, l₁, l₂, hsplit, _⟩ :=
    firstUnassigned_eq_some g.assignments g.keys v h
  exact ⟨by rw [hsplit]; simp, h1⟩

theorem get_unassigned_none (g : InterferenceGraph) :
    g.get_unassigned_variable = none ↔
      ∀ v ∈ g.keys, dictGet g.assignments v ≠ none :=
  firstUnassigned_eq_none g.assignments g.keys

theorem is_safe_iff (g : InterferenceGraph) (v : String) (c : Nat) :
    g.is_safe v c = true ↔
      ∀ u ∈ g.get_neighbors v, dictGet g.assignments u ≠ some c := by
  unfold InterferenceGraph.is_safe
  simp [List.all_eq_true]

theorem filter_length_le_of_imp (l : List String) (p q : String → Bool)
    (h : ∀ x, q x = true → p x = true) :
    (l.filter q).length ≤ (l.filter p).length := by
  induction l with
  | nil => simp
  | cons x xs ih =>
    by_cases hq : q x = true
    · simp [List.filter_cons, hq, h x hq, Nat.succ_le_succ ih]
    · by_cases hp : p x = true <;>
        simp [List.filter_cons, hq, hp] <;> omega

theorem filter_length_lt_of_mem (l : List String) (p q : String → Bool)
    (h : ∀ x, q x = true → p x = true) (v : String) (hv : v ∈ l)
    (hpv : p v = true) (hqv : q v = false) :
    (l.filter q).length < (l.filter p).length := by
  induction l with
  | nil => simp at hv
  | cons x xs ih =>
    rcases List.mem_cons.mp hv with rfl | hv
    · have := filter_length_le_of_imp xs p q h
      simp [List.filter_cons, hpv, hqv]
      omega
    · by_cases hq : q x = true
      · simp [List.filter_cons, hq, h x hq, Nat.succ_lt_succ (ih hv)]
      · by_cases hp : p x = true <;>
          simp [List.filter_cons, hq, hp] <;>
          [exact Nat.lt_succ_of_lt (ih hv); exact ih hv]

theorem unassignedCount_assign_lt (g : InterferenceGraph) (v : String) (c : Nat)
    (hv : v ∈ g.keys) (hn : dictGet g.assignments v = none) :
    unassignedCount (g.assign v c) < unassignedCount g := by
  unfold unassignedCount
  rw [assign_keys]
  refine filter_length_lt_of_mem g.keys
    (fun x => (dictGet g.assignments x).isNone)
    (fun x => (dictGet (g.assign v c).assignments x).isNone)
    (fun x hx => ?_) v hv ?_ ?_
  · replace hx : (dictGet (g.assign v c).assignments x).isNone = true := hx
    show (dictGet g.assignments x).isNone = true
    rw [assign_assignments, dictGet_dictSet] at hx
    by_cases hvx : v = x
    · rw [if_pos hvx] at hx; simp at hx
    · rwa [if_neg hvx] at hx
  · show (dictGet g.assignments v).isNone = true
    simp [hn]
  · show (dictGet (g.assign v c).assignments v).isNone = false
    rw [assign_assignments, dictGet_dictSet, if_pos rfl]
    rfl

-- ## Allocator: state restoration on failure

theorem tryColours_false (nxt : InterferenceGraph → Bool × InterferenceGraph)
    (hA : ∀ h h', nxt h = (false, h') → h' = h)
    (g : InterferenceGraph) (v : String) (hv : dictGet g.assignments v = none) :
    ∀ (cs : List Nat) (g' : InterferenceGraph),
      tryColours nxt v cs g = (false, g') → g' = g := by
  intro cs
  induction cs with
  | nil =>
    intro g' h
    simp only [tryColours, Prod.mk.injEq] at h
    exact h.2.symm
  | cons c cs ih =>
    intro g' h
    simp only [tryColours] at h
    by_cases hs : g.is_safe v c
    · rw [if_pos hs] at h
      rcases hnxt : nxt (g.assign v c) with ⟨b, gh⟩
      rw [hnxt] at h
      cases b
      · simp only [] at h
        have hgh := hA _ _ hnxt
        rw [hgh, unassign_assign g v c hv] at h
        exact ih g' h
      · simp at h
    · rw [if_neg hs] at h
      exact ih g' h

theorem allocateFuel_false (k : Nat) :
    ∀ (fuel : Nat) (g g' : InterferenceGraph),
      allocateFuel k fuel g = (false, g') → g' = g := by
  intro fuel
  induction fuel with
  | zero =>
    intro g g' h
    simp only [allocateFuel, Prod.mk.injEq] at h
    exact h.2.symm
  | succ fuel ih =>
    intro g g' h
    simp only [allocateFuel] at h
    rcases hget : g.get_unassigned_variable with _ | v
    · rw [hget] at h
      simp at h
    · rw [hget] at h
      exact tryColours_false _ (fun h h' => ih h h') g v
        (get_unassigned_some g v hget).2 _ g' h

-- ## Allocator: the node dictionary is never modified

theorem tryColours_nodes (nxt : InterferenceGraph → Bool × InterferenceGraph)
    (hA : ∀ h, (nxt h).2.nodes = h.nodes) (v : String) :
    ∀ (cs : List Nat) (g : InterferenceGraph),
      (tryColours nxt v cs g).2.nodes = g.nodes := by
  intro cs
  induction cs with
  | nil => intro g; rfl
  | cons c cs ih =>
    intro g
    simp only [tryColours]
    by_cases hs : g.is_safe v c
    · rw [if_pos hs]
      rcases hnxt : nxt (g.assign v c) with ⟨b, gh⟩
      have hgh : gh.nodes = g.nodes := by
        have := hA (g.assign v c)
        rw [hnxt] at this
        exact this
      cases b
      · simp only []
        rw [ih (gh.unassign v), unassign_nodes]
        exact hgh
      · exact hgh
    · rw [if_neg hs]
      exact ih g

theorem allocateFuel_nodes (k : Nat) :
    ∀ (fuel : Nat) (g : InterferenceGraph),
      (allocateFuel k fuel g).2.nodes = g.nodes := by
  intro fuel
  induction fuel with
  | zero => intro g; rfl
  | succ fuel ih =>
    intro g
    simp only [allocateFuel]
    rcases hget : g.get_unassigned_variable with _ | v
    · rfl
    · exact tryColours_nodes _ ih v _ g

-- ## Allocator: on success every node is assigned

theorem tryColours_true_none (nxt : InterferenceGraph → Bool × InterferenceGraph)
    (hA : ∀ h h', nxt h = (true, h') → h'.get_unassigned_variable = none)
    (v : String) :
    ∀ (cs : List Nat) (g g' : InterferenceGraph),
      tryColours nxt v cs g = (true, g') →
      g'.get_unassigned_variable = none := by
  intro cs
  induction cs with
  | nil =>
    intro g g' h
    simp [tryColours] at h
  | cons c cs ih =>
    intro g g' h
    simp only [tryColours] at h
    by_cases hs : g.is_safe v c
    · rw [if_pos hs] at h
      rcases hnxt : nxt (g.assign v c) with ⟨b, gh⟩
      rw [hnxt] at h
      cases b
      · simp only [] at h
        exact ih _ g' h
      · simp only [Prod.mk.injEq, true_and] at h
        exact h ▸ hA _ _ hnxt
    · rw [if_neg hs] at h
      exact ih g g' h

theorem allocateFuel_true_none (k : Nat) :
    ∀ (fuel : Nat) (g g' : InterferenceGraph),
      allocateFuel k fuel g = (true, g') →
      g'.get_unassigned_variable = none := by
  intro fuel
  induction fuel with
  | zero => intro g g' h; simp [allocateFuel] at h
  | succ fuel ih =>
    intro g g' h
    simp only [allocateFuel] at h
    rcases hget : g.get_unassigned_variable with _ | v
    · rw [hget] at h
      simp only [Prod.mk.injEq, true_and] at h
      exact h ▸ hget
    · rw [hget] at h
      exact tryColours_true_none _ (fun h h' => ih h h') v _ g g' h

-- ## Allocator: the colouring invariant

theorem conflictFree_assign (g : InterferenceGraph) (v : String) (c : Nat)
    (hcf : ConflictFree g) (hsym : EdgeSymm g) (hirr : EdgeIrrefl g)
    (hsafe : g.is_safe v c = true) :
    ConflictFree (g.assign v c) := by
  intro w u cw cu hu hw' hu'
  rw [get_neighbors_assign] at hu
  rw [assign_assignments, dictGet_dictSet] at hw' hu'
  by_cases hwv : v = w
  · subst hwv
    rw [if_pos rfl] at hw'
    obtain rfl := Option.some.inj hw'
    by_cases huv : v = u
    · subst huv
      exact absurd hu (hirr v)
    · rw [if_neg huv] at hu'
      intro hcc
      rw [← hcc] at hu'
      exact (is_safe_iff g v c).mp hsafe u hu hu'
  · rw [if_neg hwv] at hw'
    by_cases huv : v = u
    · subst huv
      rw [if_pos rfl] at hu'
      obtain rfl := Option.some.inj hu'
      intro hcc
      rw [hcc] at hw'
      exact (is_safe_iff g v c).mp hsafe w (hsym v w hu) hw'
    · rw [if_neg huv] at hu'
      exact hcf w u cw cu hu hw' hu'

theorem coloursBelow_assign (g : InterferenceGraph) (k : Nat) (v : String)
    (c : Nat) (hcb : ColoursBelow g k) (hc : c < k) :
    ColoursBelow (g.assign v c) k := by
  intro x cx hx
  rw [assign_assignments, dictGet_dictSet] at hx
  by_cases hvx : v = x
  · rw [if_pos hvx] at hx
    obtain rfl := Option.some.inj hx
    exact hc
  · rw [if_neg hvx] at hx
    exact hcb x cx hx

theorem allocateFuel_true_good (k : Nat) :
    ∀ (fuel : Nat) (g g' : InterferenceGraph),
      EdgeSymm g → EdgeIrrefl g → ConflictFree g → ColoursBelow g k →
      allocateFuel k fuel g = (true, g') →
      ConflictFree g' ∧ ColoursBelow g' k := by
  intro fuel
  induction fuel with
  | zero => intro g g' _ _ _ _ h; simp [allocateFuel] at h
  | succ fuel ih =>
    intro g g' hsym hirr hcf hcb h
    simp only [allocateFuel] at h
    rcases hget : g.get_unassigned_variable with _ | v
    · rw [hget] at h
      simp only [Prod.mk.injEq, true_and] at h
      exact h ▸ ⟨hcf, hcb⟩
    · rw [hget] at h
      obtain ⟨hvk, hvn⟩ := get_unassigned_some g v hget
      have inner : ∀ (cs : List Nat), (∀ c ∈ cs, c < k) →
          tryColours (fun h => allocateFuel k fuel h) v cs g = (true, g') →
          ConflictFree g' ∧ ColoursBelow g' k := by
        intro cs
        induction cs with
        | nil =>
          intro _ hh
          simp [tryColours] at hh
        | cons c cs ihc =>
          intro hck hh
          simp only [tryColours] at hh
          by_cases hs : g.is_safe v c
          · rw [if_pos hs] at hh
            rcases hnxt : allocateFuel k fuel (g.assign v c) with ⟨b, gh⟩
            rw [hnxt] at hh
            cases b
            · simp only [] at hh
              have hgh := allocateFuel_false k fuel _ _ hnxt
              rw [hgh, unassign_assign g v c hvn] at hh
              exact ihc (fun c' hc' => hck c' (List.mem_cons_of_mem _ hc')) hh
            · simp only [Prod.mk.injEq, true_and] at hh
              subst hh
              exact ih (g.assign v c) gh hsym hirr
                (conflictFree_assign g v c hcf hsym hirr hs)
                (coloursBelow_assign g k v c hcb (hck c (List.mem_cons_self c cs)))
                hnxt
          · rw [if_neg hs] at hh
            exact ihc (fun c' hc' => hck c' (List.mem_cons_of_mem _ hc')) hh
      exact inner (List.range k) (fun c hc => List.mem_range.mp hc) h

-- ## Allocator: completeness of the backtracking search

theorem allocateFuel_complete (k : Nat) (f : String → Nat) :
    ∀ (fuel : Nat) (g : InterferenceGraph),
      unassignedCount g < fuel →
      (∀ v ∈ g.keys, f v < k) →
      (∀ v u, u ∈ g.get_neighbors v → f u ≠ f v) →
      (∀ v c, dictGet g.assignments v = some c → f v = c) →
      (allocateFuel k fuel g).1 = true := by
  intro fuel
  induction fuel with
  | zero =>
    intro g h _ _ _
    exact absurd h (Nat.not_lt_zero _)
  | succ fuel ih =>
    intro g hfuel hfk hfp hagree
    simp only [allocateFuel]
    rcases hget : g.get_unassigned_variable with _ | v
    · rfl
    · obtain ⟨hvk, hvn⟩ := get_unassigned_some g v hget
      have hrec : ∀ c : Nat, c = f v →
          (allocateFuel k fuel (g.assign v c)).1 = true := by
        intro c hc
        apply ih
        · have := unassignedCount_assign_lt g v c hvk hvn
          omega
        · intro x hx
          exact hfk x hx
        · intro x u hu
          exact hfp x u hu
        · intro x cx hx
          rw [assign_assignments, dictGet_dictSet] at hx
          by_cases hvx : v = x
          · rw [if_pos hvx] at hx
            obtain rfl := Option.some.inj hx
            subst hvx
            exact hc.symm
          · rw [if_neg hvx] at hx
            exact hagree x cx hx
      have hsafe_fv : g.is_safe v (f v) = true := by
        rw [is_safe_iff]
        intro u hu hcontra
        exact hfp v u hu (hagree u (f v) hcontra)
      have inner : ∀ cs : List Nat, f v ∈ cs →
          (tryColours (fun h => allocateFuel k fuel h) v cs g).1 = true := by
        intro cs
        induction cs with
        | nil => intro h; simp at h
        | cons c cs ihc =>
          intro hmem
          simp only [tryColours]
          by_cases hs : g.is_safe v c
          · rw [if_pos hs]
            rcases hnxt : allocateFuel k fuel (g.assign v c) with ⟨b, gh⟩
            cases b
            · simp only []
              have hgh := allocateFuel_false k fuel _ _ hnxt
              rw [hgh, unassign_assign g v c hvn]
              have hcne : c ≠ f v := by
                intro hceq
                have := hrec c hceq
                rw [hnxt] at this
                simp at this
              rcases List.mem_cons.mp hmem with hfc | hmem'
              · exact absurd hfc.symm hcne
              · exact ihc hmem'
            · rfl
          · rw [if_neg hs]
            have hcne : c ≠ f v := by
              intro hceq
              rw [hceq] at hs
              exact hs hsafe_fv
            rcases List.mem_cons.mp hmem with hfc | hmem'
            · exact absurd hfc.symm hcne
            · exact ihc hmem'
      exact inner (List.range k) (List.mem_range.mpr (hfk v hvk))

-- ## Allocator: the result does not depend on the fuel budget

theorem allocateFuel_fuel_irrel (k : Nat) :
    ∀ (n : Nat) (g : InterferenceGraph), unassignedCount g = n →
      ∀ (F F' : Nat), n < F → F ≤ F' →
        allocateFuel k F' g = allocateFuel k F g := by
  intro n
  induction n using Nat.strong_induction_on with
  | _ n ih =>
    intro g hg F F' hF hFF
    obtain ⟨f, rfl⟩ : ∃ f, F = f + 1 := ⟨F - 1, by omega⟩
    obtain ⟨f', rfl⟩ : ∃ f', F' = f' + 1 := ⟨F' - 1, by omega⟩
    have hff : f ≤ f' := by omega
    simp only [allocateFuel]
    rcases hget : g.get_unassigned_variable with _ | v
    · rfl
    · obtain ⟨hvk, hvn⟩ := get_unassigned_some g v hget
      have inner : ∀ cs : List Nat,
          tryColours (fun h => allocateFuel k f' h) v cs g =
          tryColours (fun h => allocateFuel k f h) v cs g := by
        intro cs
        induction cs with
        | nil => rfl
        | cons c cs ihc =>
          simp only [tryColours]
          by_cases hs : g.is_safe v c
          · rw [if_pos hs, if_pos hs]
            have hm : unassignedCount (g.assign v c) < n := by
              have := unassignedCount_assign_lt g v c hvk hvn
              omega
            have hstep : allocateFuel k f' (g.assign v c) =
                allocateFuel k f (g.assign v c) :=
              ih (unassignedCount (g.assign v c)) hm (g.assign v c) rfl f f'
                (by omega) hff
            rw [hstep]
            rcases hnxt : allocateFuel k f (g.assign v c) with ⟨b, gh⟩
            cases b
            · simp only []
              have hgh := allocateFuel_false k f _ _ hnxt
              rw [hgh, unassign_assign g v c hvn]
              exact ihc
            · rfl
          · rw [if_neg hs, if_neg hs]
            exact ihc
      exact inner (List.range k)

-- ## Helpers relating graph states with equal node dictionaries

theorem get_neighbors_congr {g g' : InterferenceGraph} (h : g'.nodes = g.nodes)
    (x : String) : g'.get_neighbors x = g.get_neighbors x := by
  unfold InterferenceGraph.get_neighbors
  rw [h]

theorem keys_congr {g g' : InterferenceGraph} (h : g'.nodes = g.nodes) :
    g'.keys = g.keys := by
  unfold InterferenceGraph.keys
  rw [h]

theorem get_neighbors_mem_keys (g : InterferenceGraph) (v u : String)
    (hu : u ∈ g.get_neighbors v) : v ∈ g.keys := by
  by_contra hv
  have hnone := (dictGet_eq_none_iff g.nodes v).mpr hv
  unfold InterferenceGraph.get_neighbors at hu
  rw [hnone] at hu
  simp at hu

theorem unassignedCount_le (g : InterferenceGraph) :
    unassignedCount g ≤ g.nodes.length := by
  unfold unassignedCount
  calc (g.keys.filter _).length ≤ g.keys.length := List.length_filter_le _ _
    _ = g.nodes.length := by
        unfold InterferenceGraph.keys
        rw [List.length_map]

theorem edgeSymm_of_entries (g : InterferenceGraph)
    (h : ∀ p ∈ g.nodes, ∀ u ∈ p.2, p.1 ∈ g.get_neighbors u) : EdgeSymm g := by
  intro u v hu
  unfold InterferenceGraph.get_neighbors at hu
  rcases hv : dictGet g.nodes v with _ | s
  · rw [hv] at hu
    simp at hu
  · rw [hv] at hu
    exact h (v, s) (dictGet_mem hv) u hu

theorem edgeIrrefl_of_entries (g : InterferenceGraph)
    (h : ∀ p ∈ g.nodes, p.1 ∉ p.2) : EdgeIrrefl g := by
  intro v hv
  unfold InterferenceGraph.get_neighbors at hv
  rcases hg : dictGet g.nodes v with _ | s
  · rw [hg] at hv
    simp at hv
  · rw [hg] at hv
    exact h (v, s) (dictGet_mem hg) hv

theorem conflictFree_of_empty (g : InterferenceGraph)
    (h0 : g.assignments = []) : ConflictFree g := by
  intro a b ca cb _ ha _
  rw [h0] at ha
  simp [dictGet] at ha

theorem coloursBelow_of_empty (g : InterferenceGraph) (k : Nat)
    (h0 : g.assignments = []) : ColoursBelow g k := by
  intro a ca ha
  rw [h0] at ha
  simp [dictGet] at ha

-- ## Claim theorems for the allocator

/-- C2: for every interference graph (symmetric, irreflexive adjacency and
an empty assignment map — the state `build_interference_graph` hands the
allocator) and every positive register count `k`, if `allocate_registers`
returns success then afterwards every node of the graph carries a colour
in `{0, …, k-1}` in the assignments map, and the endpoints of every edge
carry different colours. -/
theorem allocate_registers_success_valid (g : InterferenceGraph) (k : Nat)
    (hsym : EdgeSymm g) (hirr : EdgeIrrefl g) (h0 : g.assignments = [])
    (_hk : 0 < k) (hsucc : (allocate_registers g k).1 = true) :
    (∀ v ∈ (allocate_registers g k).2.keys,
        ∃ c, dictGet (allocate_registers g k).2.assignments v = some c ∧ c < k) ∧
    (∀ v u cv cu, u ∈ (allocate_registers g k).2.get_neighbors v →
        dictGet (allocate_registers g k).2.assignments v = some cv →
        dictGet (allocate_registers g k).2.assignments u = some cu →
        cv ≠ cu) := by
  rcases hr : allocate_registers g k with ⟨b, g'⟩
  rw [hr] at hsucc
  obtain rfl : b = true := hsucc
  have hrun : allocateFuel k (g.nodes.length + 1) g = (true, g') := hr
  have hgood := allocateFuel_true_good k (g.nodes.length + 1) g g' hsym hirr
    (conflictFree_of_empty g h0) (coloursBelow_of_empty g k h0) hrun
  have hnone := allocateFuel_true_none k (g.nodes.length + 1) g g' hrun
  constructor
  · intro v hv
    have hne := (get_unassigned_none g').mp hnone v hv
    rcases hc : dictGet g'.assignments v with _ | c
    · exact absurd hc hne
    · exact ⟨c, rfl, hgood.2 v c hc⟩
  · intro v u cv cu hu hv' hu'
    exact hgood.1 v u cv cu hu hv' hu'

/-- C3: for every interference graph (symmetric, irreflexive adjacency and
an empty assignment map) and every positive register count `k`,
`allocate_registers` succeeds exactly when a proper `k`-colouring of the
graph exists; in particular it fails only on graphs that are not
`k`-colourable, so the node-selection and colour-trial order never affects
the yes/no outcome. -/
theorem allocate_registers_iff_colourable (g : InterferenceGraph) (k : Nat)
    (hsym : EdgeSymm g) (hirr : EdgeIrrefl g) (h0 : g.assignments = [])
    (_hk : 0 < k) :
    (allocate_registers g k).1 = true ↔ Colourable g k := by
  constructor
  · intro hsucc
    rcases hr : allocate_registers g k with ⟨b, g'⟩
    rw [hr] at hsucc
    obtain rfl : b = true := hsucc
    have hrun : allocateFuel k (g.nodes.length + 1) g = (true, g') := hr
    have hgood := allocateFuel_true_good k (g.nodes.length + 1) g g' hsym hirr
      (conflictFree_of_empty g h0) (coloursBelow_of_empty g k h0) hrun
    have hnone := allocateFuel_true_none k (g.nodes.length + 1) g g' hrun
    have hnodes : g'.nodes = g.nodes := by
      have := allocateFuel_nodes k (g.nodes.length + 1) g
      rw [hrun] at this
      exact this
    have hassigned : ∀ v ∈ g.keys, ∃ c, dictGet g'.assignments v = some c := by
      intro v hv
      have hv' : v ∈ g'.keys := by rw [keys_congr hnodes]; exact hv
      have hne := (get_unassigned_none g').mp hnone v hv'
      rcases hc : dictGet g'.assignments v with _ | c
      · exact absurd hc hne
      · exact ⟨c, rfl⟩
    refine ⟨fun v => (dictGet g'.assignments v).getD 0, ?_, ?_⟩
    · intro v hv
      obtain ⟨c, hc⟩ := hassigned v hv
      show (dictGet g'.assignments v).getD 0 < k
      rw [hc]
      exact hgood.2 v c hc
    · intro v u hu
      have hvk : v ∈ g.keys := get_neighbors_mem_keys g v u hu
      have huk : u ∈ g.keys :=
        get_neighbors_mem_keys g u v (hsym u v hu)
      obtain ⟨cv, hcv⟩ := hassigned v hvk
      obtain ⟨cu, hcu⟩ := hassigned u huk
      have hu' : u ∈ g'.get_neighbors v := by
        rw [get_neighbors_congr hnodes]
        exact hu
      show (dictGet g'.assignments u).getD 0 ≠ (dictGet g'.assignments v).getD 0
      rw [hcv, hcu]
      simpa using (hgood.1 v u cv cu hu' hcv hcu).symm
  · rintro ⟨f, hfk, hfp⟩
    apply allocateFuel_complete k f (g.nodes.length + 1) g
    · have := unassignedCount_le g
      omega
    · exact hfk
    · exact hfp
    · intro v c hc
      rw [h0] at hc
      simp [dictGet] at hc

/-- C7: whenever `allocate_registers` returns failure, the assignments map
is exactly what it was at entry — every tentative assignment made during
backtracking has been removed; on a freshly built graph (empty map) the
map is empty again after a failed search. -/
theorem allocate_registers_failure_unwound (g : InterferenceGraph) (k : Nat)
    (hfail : (allocate_registers g k).1 = false) :
    (allocate_registers g k).2 = g ∧
    (g.assignments = [] → (allocate_registers g k).2.assignments = []) := by
  rcases hr : allocate_registers g k with ⟨b, g'⟩
  rw [hr] at hfail
  obtain rfl : b = false := hfail
  have hrun : allocateFuel k (g.nodes.length + 1) g = (false, g') := hr
  have hg := allocateFuel_false k (g.nodes.length + 1) g g' hrun
  subst hg
  exact ⟨rfl, fun h => h⟩

/-- C9: the backtracking search terminates for every graph and register
count: each recursive call strictly decreases the number of unassigned
nodes, and consequently the recursion-depth budget is irrelevant as soon
as it exceeds the node count — `allocate_registers` is the common value,
a success or failure reached in finitely many steps. -/
theorem allocate_registers_terminates (g : InterferenceGraph) (k : Nat) :
    (∀ v c, g.get_unassigned_variable = some v →
        unassignedCount (g.assign v c) < unassignedCount g) ∧
    (∀ fuel, g.nodes.length < fuel →
        allocateFuel k fuel g = allocate_registers g k) := by
  constructor
  · intro v c hv
    obtain ⟨hvk, hvn⟩ := get_unassigned_some g v hv
    exact unassignedCount_assign_lt g v c hvk hvn
  · intro fuel hfuel
    have hle := unassignedCount_le g
    exact allocateFuel_fuel_irrel k (unassignedCount g) g rfl
      (g.nodes.length + 1) fuel (by omega) (by omega)

-- ## add_edge and construction lemmas

theorem dictGet_isSome_iff {β : Type} (A : List (String × β)) (x : String) :
    (dictGet A x).isSome = true ↔ x ∈ A.map Prod.fst := by
  rcases h : dictGet A x with _ | b
  · simp only [Option.isSome_none, Bool.false_eq_true, false_iff]
    exact (dictGet_eq_none_iff A x).mp h
  · simp only [Option.isSome_some, true_iff]
    exact List.mem_map.mpr ⟨(x, b), dictGet_mem h, rfl⟩

theorem make_get_neighbors (vs : List String) (w : String) :
    (InterferenceGraph.make vs).get_neighbors w = [] := by
  unfold InterferenceGraph.make InterferenceGraph.get_neighbors
  induction vs with
  | nil => rfl
  | cons v vs ih =>
    simp only [List.map_cons]
    by_cases hv : v = w
    · simp [dictGet, hv]
    · simpa [dictGet, hv] using ih

theorem make_keys (vs : List String) : (InterferenceGraph.make vs).keys = vs := by
  show List.map Prod.fst (vs.map fun v => (v, [])) = vs
  rw [List.map_map]
  have hcomp : (Prod.fst ∘ fun v : String => (v, ([] : List String))) = id := rfl
  rw [hcomp, List.map_id]

theorem make_assignments (vs : List String) :
    (InterferenceGraph.make vs).assignments = [] := rfl

theorem add_edge_some_spec (g g' : InterferenceGraph) (u v : String)
    (h : g.add_edge u v = some g') :
    g'.assignments = g.assignments ∧ g'.keys = g.keys ∧
    ∀ w x, x ∈ g'.get_neighbors w ↔
      (x ∈ g.get_neighbors w ∨
        (u ≠ v ∧ ((w = u ∧ x = v) ∨ (w = v ∧ x = u)))) := by
  unfold InterferenceGraph.add_edge at h
  by_cases huv : u = v
  · rw [if_neg (fun hne => hne huv)] at h
    obtain rfl := Option.some.inj h
    refine ⟨rfl, rfl, fun w x => ?_⟩
    simp [huv]
  · rw [if_pos huv] at h
    rcases hgu : dictGet g.nodes u with _ | s
    · have hnone : adjAdd g.nodes u v = none := by
        unfold adjAdd
        rw [hgu]
      rw [hnone] at h
      simp at h
    · have h1 : adjAdd g.nodes u v = some (dictSet g.nodes u (setAdd s v)) := by
        unfold adjAdd
        rw [hgu]
      rw [h1] at h
      dsimp only [] at h
      rcases hn1v : dictGet (dictSet g.nodes u (setAdd s v)) v with _ | t
      · have hnone : adjAdd (dictSet g.nodes u (setAdd s v)) v u = none := by
          unfold adjAdd
          rw [hn1v]
        rw [hnone] at h
        simp at h
      · have h2 : adjAdd (dictSet g.nodes u (setAdd s v)) v u =
            some (dictSet (dictSet g.nodes u (setAdd s v)) v (setAdd t u)) := by
          unfold adjAdd
          rw [hn1v]
        rw [h2] at h
        dsimp only [] at h
        obtain rfl := Option.some.inj h
        have hgv : dictGet g.nodes v = some t := by
          rw [dictGet_dictSet] at hn1v
          rwa [if_neg huv] at hn1v
        refine ⟨rfl, ?_, ?_⟩
        · show (dictSet (dictSet g.nodes u (setAdd s v)) v (setAdd t u)).map
              Prod.fst = g.nodes.map Prod.fst
          rw [keys_dictSet _ _ _ (by rw [hn1v]; rfl)]
          rw [keys_dictSet _ _ _ (by rw [hgu]; rfl)]
        · intro w x
          show x ∈ (dictGet (dictSet (dictSet g.nodes u (setAdd s v)) v
              (setAdd t u)) w).getD [] ↔ _
          rw [dictGet_dictSet, dictGet_dictSet]
          by_cases hvw : v = w
          · subst hvw
            rw [if_pos rfl]
            have hnb : g.get_neighbors v = t := by
              unfold InterferenceGraph.get_neighbors
              rw [hgv]
              rfl
            have huv' : v ≠ u := fun hh => huv hh.symm
            simp only [Option.getD_some, mem_setAdd, hnb]
            tauto
          · rw [if_neg hvw]
            by_cases huw : u = w
            · subst huw
              rw [if_pos rfl]
              have hnb : g.get_neighbors u = s := by
                unfold InterferenceGraph.get_neighbors
                rw [hgu]
                rfl
              simp only [Option.getD_some, mem_setAdd, hnb]
              tauto
            · rw [if_neg huw]
              unfold InterferenceGraph.get_neighbors
              constructor
              · intro hx
                exact Or.inl hx
              · rintro (hx | ⟨_, ⟨hwu, _⟩ | ⟨hwv, _⟩⟩)
                · exact hx
                · exact absurd hwu.symm huw
                · exact absurd hwv.symm hvw

theorem mem_keys_iff (g : InterferenceGraph) (x : String) :
    x ∈ g.keys ↔ (dictGet g.nodes x).isSome = true := by
  unfold InterferenceGraph.keys
  exact (dictGet_isSome_iff g.nodes x).symm

theorem add_edge_isSome_iff (g : InterferenceGraph) (u v : String) :
    (g.add_edge u v).isSome = true ↔
      (u = v ∨ (u ∈ g.keys ∧ v ∈ g.keys)) := by
  unfold InterferenceGraph.add_edge
  by_cases huv : u = v
  · rw [if_neg (fun hne => hne huv)]
    simp [huv]
  · rw [if_pos huv]
    rcases hgu : dictGet g.nodes u with _ | s
    · have hnone : adjAdd g.nodes u v = none := by
        unfold adjAdd
        rw [hgu]
      rw [hnone]
      simp only [Option.isSome_none, Bool.false_eq_true, false_iff]
      rintro (h | ⟨hu, _⟩)
      · exact huv h
      · rw [mem_keys_iff, hgu] at hu
        simp at hu
    · have h1 : adjAdd g.nodes u v = some (dictSet g.nodes u (setAdd s v)) := by
        unfold adjAdd
        rw [hgu]
      rw [h1]
      dsimp only []
      have hu : u ∈ g.keys := by
        rw [mem_keys_iff, hgu]
        rfl
      rcases hn1v : dictGet (dictSet g.nodes u (setAdd s v)) v with _ | t
      · have hnone : adjAdd (dictSet g.nodes u (setAdd s v)) v u = none := by
          unfold adjAdd
          rw [hn1v]
        rw [hnone]
        simp only [Option.isSome_none, Bool.false_eq_true, false_iff]
        rintro (h | ⟨_, hv⟩)
        · exact huv h
        · rw [dictGet_dictSet, if_neg huv] at hn1v
          rw [mem_keys_iff, hn1v] at hv
          simp at hv
      · have h2 : adjAdd (dictSet g.nodes u (setAdd s v)) v u =
            some (dictSet (dictSet g.nodes u (setAdd s v)) v (setAdd t u)) := by
          unfold adjAdd
          rw [hn1v]
        rw [h2]
        simp only [Option.isSome_some, true_iff]
        refine Or.inr ⟨hu, ?_⟩
        rw [dictGet_dictSet, if_neg huv] at hn1v
        rw [mem_keys_iff, hn1v]
        rfl

theorem addPairTail_spec : ∀ (ys : List String) (g g' : InterferenceGraph)
    (x : String), addPairTail g x ys = some g' →
    g'.assignments = g.assignments ∧ g'.keys = g.keys ∧
    ∀ w z, z ∈ g'.get_neighbors w ↔
      (z ∈ g.get_neighbors w ∨
        ∃ y ∈ ys, x ≠ y ∧ ((w = x ∧ z = y) ∨ (w = y ∧ z = x))) := by
  intro ys
  induction ys with
  | nil =>
    intro g g' x h
    obtain rfl := Option.some.inj h
    exact ⟨rfl, rfl, by simp⟩
  | cons y ys ih =>
    intro g g' x h
    simp only [addPairTail] at h
    rcases he : g.add_edge x y with _ | g1
    · rw [he] at h
      simp at h
    · rw [he] at h
      dsimp only [] at h
      obtain ⟨ha1, hk1, hm1⟩ := add_edge_some_spec g g1 x y he
      obtain ⟨ha2, hk2, hm2⟩ := ih g1 g' x h
      refine ⟨ha2.trans ha1, hk2.trans hk1, ?_⟩
      intro w z
      rw [hm2 w z, hm1 w z]
      constructor
      · rintro ((hz | ⟨hne, hc⟩) | ⟨y', hy', hne, hc⟩)
        · exact Or.inl hz
        · exact Or.inr ⟨y, List.mem_cons_self y ys, hne, hc⟩
        · exact Or.inr ⟨y', List.mem_cons_of_mem _ hy', hne, hc⟩
      · rintro (hz | ⟨y', hy', hne, hc⟩)
        · exact Or.inl (Or.inl hz)
        · rcases List.mem_cons.mp hy' with rfl | hy'
          · exact Or.inl (Or.inr ⟨hne, hc⟩)
          · exact Or.inr ⟨y', hy', hne, hc⟩

theorem addPairTail_some (x : String) : ∀ (ys : List String)
    (g : InterferenceGraph), x ∈ g.keys → (∀ y ∈ ys, y ∈ g.keys) →
    ∃ g', addPairTail g x ys = some g' := by
  intro ys
  induction ys with
  | nil => intro g _ _; exact ⟨g, rfl⟩
  | cons y ys ih =>
    intro g hx hys
    have hedge : (g.add_edge x y).isSome = true :=
      (add_edge_isSome_iff g x y).mpr
        (Or.inr ⟨hx, hys y (List.mem_cons_self y ys)⟩)
    rcases he : g.add_edge x y with _ | g1
    · rw [he] at hedge
      simp at hedge
    · obtain ⟨_, hk1, _⟩ := add_edge_some_spec g g1 x y he
      obtain ⟨g', hg'⟩ := ih g1 (by rw [hk1]; exact hx)
        (fun y' hy' => by rw [hk1]; exact hys y' (List.mem_cons_of_mem _ hy'))
      refine ⟨g', ?_⟩
      simp only [addPairTail]
      rw [he]
      exact hg'

theorem addCliqueEdges_spec : ∀ (l : List String) (g g' : InterferenceGraph),
    addCliqueEdges g l = some g' →
    g'.assignments = g.assignments ∧ g'.keys = g.keys ∧
    ∀ w z, z ∈ g'.get_neighbors w ↔
      (z ∈ g.get_neighbors w ∨ (w ≠ z ∧ w ∈ l ∧ z ∈ l)) := by
  intro l
  induction l with
  | nil =>
    intro g g' h
    obtain rfl := Option.some.inj h
    exact ⟨rfl, rfl, by simp⟩
  | cons x xs ih =>
    intro g g' h
    simp only [addCliqueEdges] at h
    rcases hp : addPairTail g x xs with _ | g1
    · rw [hp] at h
      simp at h
    · rw [hp] at h
      dsimp only [] at h
      obtain ⟨ha1, hk1, hm1⟩ := addPairTail_spec xs g g1 x hp
      obtain ⟨ha2, hk2, hm2⟩ := ih g1 g' h
      refine ⟨ha2.trans ha1, hk2.trans hk1, ?_⟩
      intro w z
      rw [hm2 w z, hm1 w z]
      constructor
      · rintro ((hz | ⟨y, hy, hne, hc⟩) | ⟨hne, hw, hz⟩)
        · exact Or.inl hz
        · rcases hc with ⟨rfl, rfl⟩ | ⟨rfl, rfl⟩
          · exact Or.inr ⟨hne, List.mem_cons_self _ _, List.mem_cons_of_mem _ hy⟩
          · exact Or.inr ⟨fun hh => hne hh.symm,
              List.mem_cons_of_mem _ hy, List.mem_cons_self _ _⟩
        · exact Or.inr ⟨hne, List.mem_cons_of_mem _ hw, List.mem_cons_of_mem _ hz⟩
      · rintro (hz | ⟨hne, hw, hz⟩)
        · exact Or.inl (Or.inl hz)
        · rcases List.mem_cons.mp hw with hwx | hw'
          · rcases List.mem_cons.mp hz with hzx | hz'
            · exact absurd (hwx.trans hzx.symm) hne
            · exact Or.inl (Or.inr ⟨z, hz', fun hh => hne (hwx.trans hh),
                Or.inl ⟨hwx, rfl⟩⟩)
          · rcases List.mem_cons.mp hz with hzx | hz'
            · exact Or.inl (Or.inr ⟨w, hw', fun hh => hne ((hzx.trans hh).symm),
                Or.inr ⟨rfl, hzx⟩⟩)
            · exact Or.inr ⟨hne, hw', hz'⟩

theorem addCliqueEdges_some : ∀ (l : List String) (g : InterferenceGraph),
    (∀ y ∈ l, y ∈ g.keys) → ∃ g', addCliqueEdges g l = some g' := by
  intro l
  induction l with
  | nil => intro g _; exact ⟨g, rfl⟩
  | cons x xs ih =>
    intro g hl
    obtain ⟨g1, hg1⟩ := addPairTail_some x xs g
      (hl x (List.mem_cons_self x xs))
      (fun y hy => hl y (List.mem_cons_of_mem _ hy))
    obtain ⟨_, hk1, _⟩ := addPairTail_spec xs g g1 x hg1
    obtain ⟨g', hg'⟩ := ih g1
      (fun y hy => by rw [hk1]; exact hl y (List.mem_cons_of_mem _ hy))
    refine ⟨g', ?_⟩
    simp only [addCliqueEdges]
    rw [hg1]
    exact hg'

theorem addAllCliques_spec : ∀ (ss : List (List String))
    (g g' : InterferenceGraph), addAllCliques g ss = some g' →
    g'.assignments = g.assignments ∧ g'.keys = g.keys ∧
    ∀ w z, z ∈ g'.get_neighbors w ↔
      (z ∈ g.get_neighbors w ∨ ∃ s ∈ ss, w ≠ z ∧ w ∈ s ∧ z ∈ s) := by
  intro ss
  induction ss with
  | nil =>
    intro g g' h
    obtain rfl := Option.some.inj h
    exact ⟨rfl, rfl, by simp⟩
  | cons s ss ih =>
    intro g g' h
    simp only [addAllCliques] at h
    rcases hc : addCliqueEdges g s with _ | g1
    · rw [hc] at h
      simp at h
    · rw [hc] at h
      dsimp only [] at h
      obtain ⟨ha1, hk1, hm1⟩ := addCliqueEdges_spec s g g1 hc
      obtain ⟨ha2, hk2, hm2⟩ := ih g1 g' h
      refine ⟨ha2.trans ha1, hk2.trans hk1, ?_⟩
      intro w z
      rw [hm2 w z, hm1 w z]
      constructor
      · rintro ((hz | hpair) | ⟨s', hs', hdata⟩)
        · exact Or.inl hz
        · exact Or.inr ⟨s, List.mem_cons_self s ss, hpair⟩
        · exact Or.inr ⟨s', List.mem_cons_of_mem _ hs', hdata⟩
      · rintro (hz | ⟨s', hs', hdata⟩)
        · exact Or.inl (Or.inl hz)
        · rcases List.mem_cons.mp hs' with rfl | hs'
          · exact Or.inl (Or.inr hdata)
          · exact Or.inr ⟨s', hs', hdata⟩

theorem addAllCliques_some : ∀ (ss : List (List String))
    (g : InterferenceGraph), (∀ s ∈ ss, ∀ y ∈ s, y ∈ g.keys) →
    ∃ g', addAllCliques g ss = some g' := by
  intro ss
  induction ss with
  | nil => intro g _; exact ⟨g, rfl⟩
  | cons s ss ih =>
    intro g hss
    obtain ⟨g1, hg1⟩ := addCliqueEdges_some s g (hss s (List.mem_cons_self s ss))
    obtain ⟨_, hk1, _⟩ := addCliqueEdges_spec s g g1 hg1
    obtain ⟨g', hg'⟩ := ih g1
      (fun s' hs' y hy => by rw [hk1]; exact hss s' (List.mem_cons_of_mem _ hs') y hy)
    refine ⟨g', ?_⟩
    simp only [addAllCliques]
    rw [hg1]
    exact hg'

-- ## C8: symmetry and irreflexivity of the adjacency

theorem add_edge_preserves_invariant (g g' : InterferenceGraph) (u v : String)
    (h : g.add_edge u v = some g') (hsym : EdgeSymm g) (hirr : EdgeIrrefl g) :
    EdgeSymm g' ∧ EdgeIrrefl g' := by
  obtain ⟨_, _, hm⟩ := add_edge_some_spec g g' u v h
  constructor
  · intro p q hp
    rw [hm q p] at hp
    rw [hm p q]
    rcases hp with hp | ⟨hne, ⟨rfl, rfl⟩ | ⟨rfl, rfl⟩⟩
    · exact Or.inl (hsym p q hp)
    · exact Or.inr ⟨hne, Or.inr ⟨rfl, rfl⟩⟩
    · exact Or.inr ⟨hne, Or.inl ⟨rfl, rfl⟩⟩
  · intro p hp
    rw [hm p p] at hp
    rcases hp with hp | ⟨hne, ⟨rfl, rfl⟩ | ⟨rfl, rfl⟩⟩
    · exact hirr p hp
    · exact hne rfl
    · exact hne rfl

theorem applyEdges_invariant : ∀ (calls : List (String × String))
    (g g' : InterferenceGraph), applyEdges g calls = some g' →
    EdgeSymm g → EdgeIrrefl g → EdgeSymm g' ∧ EdgeIrrefl g' := by
  intro calls
  induction calls with
  | nil =>
    intro g g' h hsym hirr
    obtain rfl := Option.some.inj h
    exact ⟨hsym, hirr⟩
  | cons p calls ih =>
    intro g g' h hsym hirr
    obtain ⟨u, v⟩ := p
    simp only [applyEdges] at h
    rcases he : g.add_edge u v with _ | g1
    · rw [he] at h
      simp at h
    · rw [he] at h
      dsimp only [] at h
      obtain ⟨hs1, hi1⟩ := add_edge_preserves_invariant g g1 u v he hsym hirr
      exact ih g1 g' h hs1 hi1

theorem make_edgeSymm (vs : List String) : EdgeSymm (InterferenceGraph.make vs) := by
  intro u v hu
  rw [make_get_neighbors] at hu
  simp at hu

theorem make_edgeIrrefl (vs : List String) :
    EdgeIrrefl (InterferenceGraph.make vs) := by
  intro v hv
  rw [make_get_neighbors] at hv
  simp at hv

/-- C8: starting from a freshly constructed graph, after any sequence of
successful `add_edge` calls the adjacency is irreflexive (no variable is
its own neighbour) and symmetric (`u` adjacent to `v` iff `v` adjacent
to `u`). -/
theorem interference_graph_symm_irrefl (vs : List String)
    (calls : List (String × String)) (g : InterferenceGraph)
    (h : applyEdges (InterferenceGraph.make vs) calls = some g) :
    (∀ v, v ∉ g.get_neighbors v) ∧
    (∀ u v, u ∈ g.get_neighbors v ↔ v ∈ g.get_neighbors u) := by
  obtain ⟨hsym, hirr⟩ := applyEdges_invariant calls (InterferenceGraph.make vs) g
    h (make_edgeSymm vs) (make_edgeIrrefl vs)
  exact ⟨hirr, fun u v => ⟨fun hu => hsym u v hu, fun hv => hsym v u hv⟩⟩

-- ## Membership in all_vars and the liveness tables

theorem compute_liveness_cons (op : Operation) (rest : List Operation)
    (lo : List String) :
    compute_liveness (op :: rest) lo =
      (setUnion (uses op)
          (setDiff ((compute_liveness rest lo).1.headD lo) (defs op)) ::
        (compute_liveness rest lo).1,
       (compute_liveness rest lo).1.headD lo :: (compute_liveness rest lo).2) :=
  rfl

theorem mem_optSlot (acc : List String) (o : Option String) (x : String) :
    x ∈ optSlot acc o ↔ x ∈ acc ∨ (o = some x ∧ x ≠ "") := by
  rcases o with _ | s
  · simp [optSlot]
  · show x ∈ (if s.isEmpty = true then acc else setAdd acc s) ↔
        x ∈ acc ∨ (some s = some x ∧ x ≠ "")
    by_cases hs : s.isEmpty = true
    · rw [if_pos hs]
      rw [String.isEmpty_iff] at hs
      subst hs
      simp only [Option.some.injEq]
      constructor
      · exact Or.inl
      · rintro (h | ⟨rfl, hne⟩)
        · exact h
        · exact absurd rfl hne
    · rw [if_neg hs]
      rw [mem_setAdd]
      have hs' : s ≠ "" := fun h => hs ((String.isEmpty_iff s).mpr h)
      constructor
      · rintro (h | rfl)
        · exact Or.inl h
        · exact Or.inr ⟨rfl, hs'⟩
      · rintro (h | ⟨hsx, hne⟩)
        · exact Or.inl h
        · exact Or.inr (Option.some.inj hsx).symm

theorem mem_opAllVars (acc : List String) (op : Operation) (x : String) :
    x ∈ opAllVars acc op ↔
      x ∈ acc ∨ x = op.destination ∨
      (op.operand1 = some x ∧ x ≠ "") ∨ (op.operand2 = some x ∧ x ≠ "") := by
  unfold opAllVars
  rw [mem_optSlot, mem_optSlot, mem_setAdd]
  tauto

theorem mem_foldl_opAllVars : ∀ (ops : List Operation) (acc : List String)
    (x : String), x ∈ ops.foldl opAllVars acc ↔
      x ∈ acc ∨ ∃ op ∈ ops, x = op.destination ∨
        (op.operand1 = some x ∧ x ≠ "") ∨ (op.operand2 = some x ∧ x ≠ "") := by
  intro ops
  induction ops with
  | nil => simp
  | cons op ops ih =>
    intro acc x
    simp only [List.foldl_cons]
    rw [ih, mem_opAllVars]
    constructor
    · rintro (h | ⟨op', hop', hd⟩)
      · rcases h with hacc | hd
        · exact Or.inl hacc
        · exact Or.inr ⟨op, List.mem_cons_self _ _, hd⟩
      · exact Or.inr ⟨op', List.mem_cons_of_mem _ hop', hd⟩
    · rintro (hacc | ⟨op', hop', hd⟩)
      · exact Or.inl (Or.inl hacc)
      · rcases List.mem_cons.mp hop' with rfl | hop'
        · exact Or.inl (Or.inr hd)
        · exact Or.inr ⟨op', hop', hd⟩

theorem mem_allVars (code : IntermediateCode) (x : String) :
    x ∈ allVars code ↔
      x ∈ code.live_out ∨ ∃ op ∈ code.oplist, x = op.destination ∨
        (op.operand1 = some x ∧ x ≠ "") ∨ (op.operand2 = some x ∧ x ≠ "") := by
  unfold allVars
  rw [mem_foldl_opAllVars, mem_pySet]

theorem mem_valid_vars (code : IntermediateCode) (x : String) :
    x ∈ valid_vars code ↔ is_var x = true ∧ x ∈ allVars code := by
  unfold valid_vars
  rw [List.mem_insertionSort, List.mem_filter]
  tauto

theorem compute_liveness_subset (ops : List Operation) (lo : List String) :
    (∀ l ∈ (compute_liveness ops lo).1, ∀ x ∈ l,
        x ∈ lo ∨ ∃ op ∈ ops, x ∈ uses op) ∧
    (∀ l ∈ (compute_liveness ops lo).2, ∀ x ∈ l,
        x ∈ lo ∨ ∃ op ∈ ops, x ∈ uses op) := by
  induction ops with
  | nil => simp [compute_liveness]
  | cons op rest ih =>
    obtain ⟨ih1, ih2⟩ := ih
    have hafter : ∀ x ∈ (compute_liveness rest lo).1.headD lo,
        x ∈ lo ∨ ∃ op' ∈ op :: rest, x ∈ uses op' := by
      intro x hx
      rcases hcl : (compute_liveness rest lo).1 with _ | ⟨b, bs⟩
      · rw [hcl] at hx
        exact Or.inl hx
      · rw [hcl] at hx
        rcases ih1 b (by rw [hcl]; exact List.mem_cons_self _ _) x hx with
          h | ⟨op', hop', hu⟩
        · exact Or.inl h
        · exact Or.inr ⟨op', List.mem_cons_of_mem _ hop', hu⟩
    constructor
    · intro l hl x hx
      rw [compute_liveness_cons] at hl
      rcases List.mem_cons.mp hl with rfl | hl
      · rcases mem_setUnion.mp hx with hu | hd
        · exact Or.inr ⟨op, List.mem_cons_self _ _, hu⟩
        · exact hafter x (mem_setDiff.mp hd).1
      · rcases ih1 l hl x hx with h | ⟨op', hop', hu⟩
        · exact Or.inl h
        · exact Or.inr ⟨op', List.mem_cons_of_mem _ hop', hu⟩
    · intro l hl x hx
      rw [compute_liveness_cons] at hl
      rcases List.mem_cons.mp hl with rfl | hl
      · exact hafter x hx
      · rcases ih2 l hl x hx with h | ⟨op', hop', hu⟩
        · exact Or.inl h
        · exact Or.inr ⟨op', List.mem_cons_of_mem _ hop', hu⟩

-- ## valid_vars is sorted and duplicate-free

theorem nodup_setAdd {l : List String} (h : l.Nodup) (x : String) :
    (setAdd l x).Nodup := by
  unfold setAdd
  by_cases hx : x ∈ l
  · rw [if_pos hx]
    exact h
  · rw [if_neg hx]
    rw [List.nodup_append]
    refine ⟨h, List.nodup_singleton x, ?_⟩
    intro a ha hax
    rw [List.mem_singleton] at hax
    subst hax
    exact hx ha

theorem nodup_foldl_setAdd : ∀ (l acc : List String), acc.Nodup →
    (l.foldl setAdd acc).Nodup := by
  intro l
  induction l with
  | nil => intro acc h; exact h
  | cons x xs ih => intro acc h; exact ih _ (nodup_setAdd h x)

theorem nodup_pySet (l : List String) : (pySet l).Nodup :=
  nodup_foldl_setAdd l [] List.nodup_nil

theorem nodup_optSlot (acc : List String) (o : Option String) (h : acc.Nodup) :
    (optSlot acc o).Nodup := by
  rcases o with _ | s
  · exact h
  · show (if s.isEmpty = true then acc else setAdd acc s).Nodup
    by_cases hs : s.isEmpty = true
    · rw [if_pos hs]
      exact h
    · rw [if_neg hs]
      exact nodup_setAdd h s

theorem nodup_allVars (code : IntermediateCode) : (allVars code).Nodup := by
  unfold allVars
  have hstep : ∀ (ops : List Operation) (acc : List String), acc.Nodup →
      (ops.foldl opAllVars acc).Nodup := by
    intro ops
    induction ops with
    | nil => intro acc h; exact h
    | cons op ops ih =>
      intro acc h
      refine ih _ ?_
      unfold opAllVars
      exact nodup_optSlot _ _ (nodup_optSlot _ _ (nodup_setAdd h _))
  exact hstep _ _ (nodup_pySet _)

theorem nodup_valid_vars (code : IntermediateCode) : (valid_vars code).Nodup := by
  unfold valid_vars
  exact ((List.perm_insertionSort strLe _).nodup_iff).mpr
    ((nodup_allVars code).filter _)

theorem sorted_valid_vars (code : IntermediateCode) :
    List.Sorted (· < ·) (valid_vars code) := by
  haveI ht : IsTotal String strLe :=
    ⟨fun a b => by rw [strLe_iff, strLe_iff]; exact le_total a b⟩
  haveI htr : IsTrans String strLe :=
    ⟨fun a b c hab hbc => by
      rw [strLe_iff] at hab hbc ⊢
      exact le_trans hab hbc⟩
  have hs : List.Sorted strLe (valid_vars code) :=
    List.sorted_insertionSort strLe _
  have hn : (valid_vars code).Nodup := nodup_valid_vars code
  exact (hs.and hn).imp
    (fun h => lt_of_le_of_ne ((strLe_iff _ _).mp h.1) h.2)

-- ## Structure of built graphs

theorem build_keys (code : IntermediateCode) (g : InterferenceGraph)
    (h : build_interference_graph code = some g) :
    g.keys = valid_vars code ∧ g.assignments = [] := by
  unfold build_interference_graph at h
  rcases hlb : code.live_before with _ | ⟨entry, rest⟩
  · rw [hlb] at h
    dsimp only [] at h
    obtain ⟨ha, hk, _⟩ := addAllCliques_spec code.live_after _ g h
    exact ⟨by rw [hk, make_keys], by rw [ha]; rfl⟩
  · rw [hlb] at h
    dsimp only [] at h
    rcases hstep : addCliqueEdges (InterferenceGraph.make (valid_vars code))
        entry with _ | g1
    · rw [hstep] at h
      simp at h
    · rw [hstep] at h
      dsimp only [] at h
      obtain ⟨ha1, hk1, _⟩ := addCliqueEdges_spec entry _ g1 hstep
      obtain ⟨ha2, hk2, _⟩ := addAllCliques_spec code.live_after g1 g h
      exact ⟨by rw [hk2, hk1, make_keys], by rw [ha2, ha1]; rfl⟩

/-- C10: a graph produced by `build_interference_graph` has its node
dictionary in strictly ascending lexicographic order of variable names,
and in any assignment state `get_unassigned_variable` returns the
lexicographically smallest unassigned node, or `None` exactly when every
node is assigned — the node order is deterministic, not
implementation-defined. -/
theorem build_graph_node_order (code : IntermediateCode) (g : InterferenceGraph)
    (h : build_interference_graph code = some g) :
    List.Sorted (· < ·) g.keys ∧
    ∀ A : List (String × Nat),
      ((InterferenceGraph.mk g.nodes A).get_unassigned_variable = none ↔
        ∀ v ∈ g.keys, dictGet A v ≠ none) ∧
      (∀ v, (InterferenceGraph.mk g.nodes A).get_unassigned_variable = some v →
        dictGet A v = none ∧ v ∈ g.keys ∧
        ∀ u ∈ g.keys, dictGet A u = none → v ≤ u) := by
  obtain ⟨hk, _⟩ := build_keys code g h
  have hsorted : List.Sorted (· < ·) g.keys := by
    rw [hk]
    exact sorted_valid_vars code
  refine ⟨hsorted, fun A => ⟨firstUnassigned_eq_none A g.keys, ?_⟩⟩
  intro v hv
  obtain ⟨hnone, l₁, l₂, hsplit, hall⟩ := firstUnassigned_eq_some A g.keys v hv
  refine ⟨hnone, by rw [hsplit]; simp, ?_⟩
  intro u hu hun
  rw [hsplit] at hu
  rcases List.mem_append.mp hu with hu1 | hu2
  · exact absurd hun (hall u hu1)
  · rcases List.mem_cons.mp hu2 with huv | hu2
    · exact le_of_eq huv.symm
    · have hsorted' : List.Sorted (· < ·) (v :: l₂) := by
        rw [hsplit] at hsorted
        exact hsorted.sublist (List.sublist_append_right l₁ (v :: l₂))
      exact le_of_lt (List.rel_of_sorted_cons hsorted' u hu2)

theorem is_var_ne_empty {x : String} (h : is_var x = true) : x ≠ "" := by
  intro hx
  subst hx
  have hf : is_var "" = false := rfl
  rw [hf] at h
  exact Bool.noConfusion h

/-- C6: for a well-formed block — liveness tables computed by
`compute_liveness`, every `live:` name a variable — graph construction
succeeds; the node set is the union of all destinations, all variable
operands, the entry-live names and the exit-live names, filtered to
variables; and there is an edge between `u` and `v` exactly when `u ≠ v`
and the two occur together in `liveBefore[0]` (block non-empty) or in
some `liveAfter[i]`. -/
theorem build_interference_graph_spec (code : IntermediateCode)
    (hlv : livenessComputed code)
    (hlo : ∀ x ∈ code.live_out, is_var x = true) :
    ∃ g, build_interference_graph code = some g ∧
      g.keys.toFinset =
        ((code.oplist.map Operation.destination ++ (code.oplist.map uses).flatten ++
          code.live_before.headD [] ++ code.live_out).filter is_var).toFinset ∧
      ∀ v u, u ∈ g.get_neighbors v ↔
        (u ≠ v ∧ ((code.oplist ≠ [] ∧ u ∈ code.live_before.headD [] ∧
            v ∈ code.live_before.headD []) ∨
          ∃ s ∈ code.live_after, u ∈ s ∧ v ∈ s)) := by
  have hlb : code.live_before =
      (compute_liveness code.oplist (pySet code.live_out)).1 :=
    congrArg Prod.fst hlv
  have hla : code.live_after =
      (compute_liveness code.oplist (pySet code.live_out)).2 :=
    congrArg Prod.snd hlv
  have hsub := compute_liveness_subset code.oplist (pySet code.live_out)
  have hmem_valid : ∀ x, (x ∈ pySet code.live_out ∨
      ∃ op ∈ code.oplist, x ∈ uses op) → x ∈ valid_vars code := by
    intro x hx
    rw [mem_valid_vars]
    rcases hx with hx | ⟨op, hop, hu⟩
    · rw [mem_pySet] at hx
      exact ⟨hlo x hx, (mem_allVars code x).mpr (Or.inl hx)⟩
    · obtain ⟨ho, hv⟩ := (mem_uses).mp hu
      refine ⟨hv, (mem_allVars code x).mpr (Or.inr ⟨op, hop, ?_⟩)⟩
      rcases ho with ho | ho
      · exact Or.inr (Or.inl ⟨ho, is_var_ne_empty hv⟩)
      · exact Or.inr (Or.inr ⟨ho, is_var_ne_empty hv⟩)
  have hbefore_valid : ∀ l ∈ code.live_before, ∀ x ∈ l, x ∈ valid_vars code := by
    intro l hl x hx
    rw [hlb] at hl
    exact hmem_valid x (hsub.1 l hl x hx)
  have hafter_valid : ∀ l ∈ code.live_after, ∀ x ∈ l, x ∈ valid_vars code := by
    intro l hl x hx
    rw [hla] at hl
    exact hmem_valid x (hsub.2 l hl x hx)
  have hnodeset : ∀ gg : InterferenceGraph, gg.keys = valid_vars code →
      gg.keys.toFinset =
        ((code.oplist.map Operation.destination ++ (code.oplist.map uses).flatten ++
          code.live_before.headD [] ++ code.live_out).filter is_var).toFinset := by
    intro gg hgk
    ext x
    simp only [List.mem_toFinset, List.mem_filter]
    rw [hgk, mem_valid_vars]
    constructor
    · rintro ⟨hv, hall⟩
      refine ⟨?_, hv⟩
      simp only [List.mem_append]
      rcases (mem_allVars code x).mp hall with hx | ⟨op, hop, hd⟩
      · exact Or.inr hx
      · rcases hd with rfl | ⟨ho, _⟩ | ⟨ho, _⟩
        · exact Or.inl (Or.inl (Or.inl (List.mem_map_of_mem _ hop)))
        · have hu : x ∈ uses op := (mem_uses).mpr ⟨Or.inl ho, hv⟩
          refine Or.inl (Or.inl (Or.inr ?_))
          rw [List.mem_flatten]
          exact ⟨uses op, List.mem_map_of_mem _ hop, hu⟩
        · have hu : x ∈ uses op := (mem_uses).mpr ⟨Or.inr ho, hv⟩
          refine Or.inl (Or.inl (Or.inr ?_))
          rw [List.mem_flatten]
          exact ⟨uses op, List.mem_map_of_mem _ hop, hu⟩
    · rintro ⟨hx, hv⟩
      refine ⟨hv, ?_⟩
      simp only [List.mem_append] at hx
      rcases hx with ((hd | hj) | hh) | ho
      · obtain ⟨op, hop, rfl⟩ := List.mem_map.mp hd
        exact (mem_allVars code _).mpr (Or.inr ⟨op, hop, Or.inl rfl⟩)
      · rw [List.mem_flatten] at hj
        obtain ⟨s, hsm, hxs⟩ := hj
        obtain ⟨op, hop, rfl⟩ := List.mem_map.mp hsm
        obtain ⟨ho, hv'⟩ := mem_uses.mp hxs
        rcases ho with ho | ho
        · exact (mem_allVars code x).mpr
            (Or.inr ⟨op, hop, Or.inr (Or.inl ⟨ho, is_var_ne_empty hv'⟩)⟩)
        · exact (mem_allVars code x).mpr
            (Or.inr ⟨op, hop, Or.inr (Or.inr ⟨ho, is_var_ne_empty hv'⟩)⟩)
      · rcases hhl : code.live_before with _ | ⟨entry, rest⟩
        · rw [hhl] at hh
          simp at hh
        · rw [hhl] at hh
          have hentry : x ∈ valid_vars code :=
            hbefore_valid entry (by rw [hhl]; exact List.mem_cons_self _ _) x
              (by simpa using hh)
          exact ((mem_valid_vars code x).mp hentry).2
      · exact (mem_allVars code x).mpr (Or.inl ho)
  rcases hlbc : code.live_before with _ | ⟨entry, rest⟩
  · rw [hlbc] at hnodeset
    have hops : code.oplist = [] := by
      have hlen := (compute_liveness_length code.oplist (pySet code.live_out)).1
      rw [← hlb, hlbc] at hlen
      exact List.eq_nil_of_length_eq_zero hlen.symm
    obtain ⟨g, hg⟩ := addAllCliques_some code.live_after
      (InterferenceGraph.make (valid_vars code))
      (fun s hs y hy => by rw [make_keys]; exact hafter_valid s hs y hy)
    obtain ⟨ha, hk, hm⟩ :=
      addAllCliques_spec code.live_after (InterferenceGraph.make (valid_vars code)) g hg
    refine ⟨g, ?_, hnodeset g (by rw [hk, make_keys]), ?_⟩
    · unfold build_interference_graph
      rw [hlbc]
      dsimp only []
      exact hg
    · intro v u
      rw [hm v u, make_get_neighbors]
      simp only [List.not_mem_nil, false_or]
      constructor
      · rintro ⟨s, hs, hne, hv, hu⟩
        exact ⟨fun h => hne h.symm, Or.inr ⟨s, hs, hu, hv⟩⟩
      · rintro ⟨hne, ⟨hops', _, _⟩ | ⟨s, hs, hu, hv⟩⟩
        · exact absurd hops hops'
        · exact ⟨s, hs, fun h => hne h.symm, hv, hu⟩
  · rw [hlbc] at hnodeset
    have hops : code.oplist ≠ [] := by
      intro hnil
      have hlen := (compute_liveness_length code.oplist (pySet code.live_out)).1
      rw [← hlb, hlbc, hnil] at hlen
      simp at hlen
    obtain ⟨g1, hg1⟩ := addCliqueEdges_some entry
      (InterferenceGraph.make (valid_vars code))
      (fun y hy => by
        rw [make_keys]
        exact hbefore_valid entry (by rw [hlbc]; exact List.mem_cons_self _ _) y hy)
    obtain ⟨ha1, hk1, hm1⟩ := addCliqueEdges_spec entry
      (InterferenceGraph.make (valid_vars code)) g1 hg1
    obtain ⟨g, hg⟩ := addAllCliques_some code.live_after g1
      (fun s hs y hy => by rw [hk1, make_keys]; exact hafter_valid s hs y hy)
    obtain ⟨ha2, hk2, hm2⟩ := addAllCliques_spec code.live_after g1 g hg
    refine ⟨g, ?_, hnodeset g (by rw [hk2, hk1, make_keys]), ?_⟩
    · unfold build_interference_graph
      rw [hlbc]
      dsimp only []
      rw [hg1]
      dsimp only []
      exact hg
    · intro v u
      rw [hm2 v u, hm1 v u, make_get_neighbors]
      simp only [List.not_mem_nil, false_or, List.headD_cons]
      constructor
      · rintro (⟨hne, hv, hu⟩ | ⟨s, hs, hne, hv, hu⟩)
        · exact ⟨fun h => hne h.symm, Or.inl ⟨hops, hu, hv⟩⟩
        · exact ⟨fun h => hne h.symm, Or.inr ⟨s, hs, hu, hv⟩⟩
      · rintro ⟨hne, ⟨_, hu, hv⟩ | ⟨s, hs, hu, hv⟩⟩
        · exact Or.inl ⟨fun h => hne h.symm, hv, hu⟩
        · exact Or.inr ⟨s, hs, fun h => hne h.symm, hv, hu⟩

/-- C5 (the claim evaluated at a failing input): on the block `a = b`,
`live: a, 5` — where the liveOut name `5` is not a variable, hence is
excluded from the node set while staying in `live_after[0]` — graph
construction raises `KeyError` inside `add_edge` (modelled by `none`)
instead of completing; the block's liveness tables are the computed ones. -/
theorem build_crashes_on_bad_live_out :
    livenessComputed badLiveOutCode ∧
    build_interference_graph badLiveOutCode = none := by
  constructor
  · rfl
  · decide

-- ## C1: the liveness recurrence, phrased on sets

theorem toFinset_setUnion (a b : List String) :
    (setUnion a b).toFinset = a.toFinset ∪ b.toFinset := by
  ext x
  simp [mem_setUnion]

theorem toFinset_setDiff (a b : List String) :
    (setDiff a b).toFinset = a.toFinset \ b.toFinset := by
  ext x
  simp [mem_setDiff]

/-- C1: `compute_liveness` satisfies the backward dataflow recurrence:
the two tables are index-aligned with the instruction list; the last
`liveAfter` is the exit live-set; every other `liveAfter[i]` equals
`liveBefore[i+1]`; and `liveBefore[i]` is
`uses(ops[i]) ∪ (liveAfter[i] \ {destination of ops[i]})`, where `uses`
is the set of populated operand slots classified as variables by
`is_var`; an empty sequence yields empty tables. -/
theorem compute_liveness_recurrence (ops : List Operation) (lo : List String) :
    (ops = [] → compute_liveness ops lo = ([], [])) ∧
    (compute_liveness ops lo).1.length = ops.length ∧
    (compute_liveness ops lo).2.length = ops.length ∧
    (ops ≠ [] →
      ((compute_liveness ops lo).2.getD (ops.length - 1) []).toFinset =
        lo.toFinset) ∧
    (∀ i, i + 1 < ops.length →
      ((compute_liveness ops lo).2.getD i []).toFinset =
        ((compute_liveness ops lo).1.getD (i + 1) []).toFinset) ∧
    (∀ i, i < ops.length →
      ((compute_liveness ops lo).1.getD i []).toFinset =
        (uses (ops.getD i default)).toFinset ∪
          (((compute_liveness ops lo).2.getD i []).toFinset \
            (defs (ops.getD i default)).toFinset)) ∧
    (∀ op (x : String), x ∈ uses op ↔
      ((op.operand1 = some x ∨ op.operand2 = some x) ∧ is_var x = true)) := by
  refine ⟨?_, (compute_liveness_length ops lo).1,
    (compute_liveness_length ops lo).2, ?_, ?_, ?_, fun op x => mem_uses⟩
  · intro h
    subst h
    rfl
  · intro h
    rw [compute_liveness_last ops lo h]
  · intro i hi
    rw [compute_liveness_after_eq ops lo i hi]
  · intro i hi
    rw [compute_liveness_before_eq ops lo i hi, toFinset_setUnion,
      toFinset_setDiff]

-- ## C4: the branching-step trace

theorem tryColoursTr_fst
    (nxtT : InterferenceGraph →
      (Bool × InterferenceGraph) × List (InterferenceGraph × String))
    (nxt : InterferenceGraph → Bool × InterferenceGraph)
    (hc : ∀ h, (nxtT h).1 = nxt h) (v : String) :
    ∀ (cs : List Nat) (g : InterferenceGraph),
      (tryColoursTr nxtT v cs g).1 = tryColours nxt v cs g := by
  intro cs
  induction cs with
  | nil => intro g; rfl
  | cons c cs ih =>
    intro g
    simp only [tryColoursTr, tryColours]
    by_cases hs : g.is_safe v c
    · rw [if_pos hs, if_pos hs]
      rcases ht : nxtT (g.assign v c) with ⟨⟨b, gh⟩, tr⟩
      have hb : nxt (g.assign v c) = (b, gh) := by
        rw [← hc]
        rw [ht]
      rw [hb]
      cases b
      · dsimp only []
        exact ih _
      · rfl
    · rw [if_neg hs, if_neg hs]
      exact ih g

theorem allocTr_fst (k : Nat) : ∀ (fuel : Nat) (g : InterferenceGraph),
    (allocTr k fuel g).1 = allocateFuel k fuel g := by
  intro fuel
  induction fuel with
  | zero => intro g; rfl
  | succ fuel ih =>
    intro g
    simp only [allocTr, allocateFuel]
    rcases hget : g.get_unassigned_variable with _ | v
    · rfl
    · exact tryColoursTr_fst _ _ ih v _ g

theorem tryColoursTr_trace_spec (k fuel : Nat)
    (ih : ∀ g p, p ∈ (allocTr k fuel g).2 →
      p.1.nodes = g.nodes ∧ p.1.get_unassigned_variable = some p.2)
    (v : String) :
    ∀ (cs : List Nat) (g : InterferenceGraph) (p : InterferenceGraph × String),
      p ∈ (tryColoursTr (fun h => allocTr k fuel h) v cs g).2 →
      p.1.nodes = g.nodes ∧ p.1.get_unassigned_variable = some p.2 := by
  intro cs
  induction cs with
  | nil =>
    intro g p hp
    simp [tryColoursTr] at hp
  | cons c cs ihc =>
    intro g p hp
    simp only [tryColoursTr] at hp
    by_cases hs : g.is_safe v c
    · rw [if_pos hs] at hp
      rcases ht : allocTr k fuel (g.assign v c) with ⟨⟨b, gh⟩, tr⟩
      rw [ht] at hp
      have hgh : gh.nodes = g.nodes := by
        have hb := allocTr_fst k fuel (g.assign v c)
        rw [ht] at hb
        have := allocateFuel_nodes k fuel (g.assign v c)
        rw [← hb] at this
        exact this
      cases b
      · dsimp only [] at hp
        rcases List.mem_append.mp hp with hp | hp
        · have := ih (g.assign v c) p (by rw [ht]; exact hp)
          exact ⟨this.1, this.2⟩
        · have := ihc (gh.unassign v) p hp
          rw [unassign_nodes, hgh] at this
          exact this
      · dsimp only [] at hp
        have := ih (g.assign v c) p (by rw [ht]; exact hp)
        exact ⟨this.1, this.2⟩
    · rw [if_neg hs] at hp
      exact ihc g p hp

theorem allocTr_trace_spec (k : Nat) : ∀ (fuel : Nat) (g : InterferenceGraph)
    (p : InterferenceGraph × String), p ∈ (allocTr k fuel g).2 →
    p.1.nodes = g.nodes ∧ p.1.get_unassigned_variable = some p.2 := by
  intro fuel
  induction fuel with
  | zero =>
    intro g p hp
    simp [allocTr] at hp
  | succ fuel ih =>
    intro g p hp
    simp only [allocTr] at hp
    rcases hget : g.get_unassigned_variable with _ | v
    · rw [hget] at hp
      simp at hp
    · rw [hget] at hp
      dsimp only [] at hp
      rcases List.mem_cons.mp hp with rfl | hp
      · exact ⟨rfl, hget⟩
      · exact tryColoursTr_trace_spec k fuel ih v _ g p hp

theorem firstUnassigned_min (A : List (String × Nat)) (l : List String)
    (hsorted : List.Sorted (· < ·) l) (v : String)
    (h : firstUnassigned A l = some v) :
    ∀ u ∈ l, dictGet A u = none → v ≤ u := by
  obtain ⟨_, l₁, l₂, hsplit, hall⟩ := firstUnassigned_eq_some A l v h
  intro u hu hun
  rw [hsplit] at hu
  rcases List.mem_append.mp hu with hu1 | hu2
  · exact absurd hun (hall u hu1)
  · rcases List.mem_cons.mp hu2 with huv | hu2
    · exact le_of_eq huv.symm
    · have hsorted' : List.Sorted (· < ·) (v :: l₂) := by
        rw [hsplit] at hsorted
        exact hsorted.sublist (List.sublist_append_right l₁ (v :: l₂))
      exact le_of_lt (List.rel_of_sorted_cons hsorted' u hu2)

theorem sorted_lt_of_strLtB (l : List String)
    (h : List.Pairwise (fun a b => strLtB a b = true) l) :
    List.Sorted (· < ·) l :=
  h.imp (fun hab => (strLtB_iff _ _).mp hab)

/-- C4 (counterexample): the claim fails on the graph with nodes
`a, b, c` and the single edge `a–c`, with two registers: at the second
branching step the allocator selects `b` (saturation 0) although the
unassigned node `c` has saturation 1 — the selection is not the
saturation-degree (DSATUR) rule. -/
theorem allocate_trace_not_dsatur :
    ¬ ∀ p ∈ allocate_trace singleEdgeGraph 2, DsaturChoice p.1 p.2 := by
  decide

/-- C4 (amended): at every branching step of the allocator the node
selected to colour next is the first unassigned node in the node
dictionary's insertion order — for a graph whose node order is sorted,
as `build_interference_graph` always arranges, the lexicographically
smallest unassigned node; the colour loop tries the list `List.range k`,
i.e. colours `0, 1, …, k-1` in ascending order. -/
theorem allocate_trace_first_unassigned (g : InterferenceGraph) (k : Nat)
    (hsorted : List.Sorted (· < ·) g.keys) :
    (∀ p ∈ allocate_trace g k,
      p.1.nodes = g.nodes ∧
      p.1.get_unassigned_variable = some p.2 ∧
      dictGet p.1.assignments p.2 = none ∧ p.2 ∈ g.keys ∧
      (∀ u ∈ g.keys, dictGet p.1.assignments u = none → p.2 ≤ u)) ∧
    List.Sorted (· < ·) (List.range k) := by
  constructor
  · intro p hp
    obtain ⟨hnodes, hget⟩ := allocTr_trace_spec k _ g p hp
    obtain ⟨hvk, hvn⟩ := get_unassigned_some p.1 p.2 hget
    have hkeys : p.1.keys = g.keys := keys_congr hnodes
    refine ⟨hnodes, hget, hvn, by rw [← hkeys]; exact hvk, ?_⟩
    intro u hu hun
    have hmin := firstUnassigned_min p.1.assignments p.1.keys
      (by rw [hkeys]; exact hsorted) p.2 hget
    exact hmin u (by rw [hkeys]; exact hu) hun
  · exact List.pairwise_lt_range k

-- ## Witnesses

/-- Witness for C1 at the empty block and at spec scenario A
(`a = 1`, `b = a + 1`, `live: b`). -/
theorem compute_liveness_recurrence_witness :
    compute_liveness [] ["b"] = ([], []) ∧
    ((compute_liveness scenarioAOps ["b"]).2.getD 1 []).toFinset =
      (["b"] : List String).toFinset ∧
    ((compute_liveness scenarioAOps ["b"]).2.getD 0 []).toFinset =
      ((compute_liveness scenarioAOps ["b"]).1.getD 1 []).toFinset ∧
    ((compute_liveness scenarioAOps ["b"]).1.getD 0 []).toFinset =
      (uses (scenarioAOps.getD 0 default)).toFinset ∪
        (((compute_liveness scenarioAOps ["b"]).2.getD 0 []).toFinset \
          (defs (scenarioAOps.getD 0 default)).toFinset) :=
  ⟨(compute_liveness_recurrence [] ["b"]).1 rfl,
   (compute_liveness_recurrence scenarioAOps ["b"]).2.2.2.1 (by decide),
   (compute_liveness_recurrence scenarioAOps ["b"]).2.2.2.2.1 0 (by decide),
   (compute_liveness_recurrence scenarioAOps ["b"]).2.2.2.2.2.1 0 (by decide)⟩

/-- Witness for C2 on the triangle graph with three registers. -/
theorem allocate_registers_success_valid_witness :
    (∀ v ∈ (allocate_registers triangleGraph 3).2.keys,
        ∃ c, dictGet (allocate_registers triangleGraph 3).2.assignments v =
          some c ∧ c < 3) ∧
    (∀ v u cv cu, u ∈ (allocate_registers triangleGraph 3).2.get_neighbors v →
        dictGet (allocate_registers triangleGraph 3).2.assignments v = some cv →
        dictGet (allocate_registers triangleGraph 3).2.assignments u = some cu →
        cv ≠ cu) :=
  allocate_registers_success_valid triangleGraph 3
    (edgeSymm_of_entries _ (by decide))
    (edgeIrrefl_of_entries _ (by decide))
    rfl (by decide) (by decide)

/-- Witness for C3 on the triangle graph with three registers. -/
theorem allocate_registers_iff_colourable_witness :
    (allocate_registers triangleGraph 3).1 = true ↔ Colourable triangleGraph 3 :=
  allocate_registers_iff_colourable triangleGraph 3
    (edgeSymm_of_entries _ (by decide))
    (edgeIrrefl_of_entries _ (by decide))
    rfl (by decide)

/-- Witness for the amended C4 on the single-edge graph. -/
theorem allocate_trace_first_unassigned_witness :
    (∀ p ∈ allocate_trace singleEdgeGraph 2,
      p.1.nodes = singleEdgeGraph.nodes ∧
      p.1.get_unassigned_variable = some p.2 ∧
      dictGet p.1.assignments p.2 = none ∧ p.2 ∈ singleEdgeGraph.keys ∧
      (∀ u ∈ singleEdgeGraph.keys, dictGet p.1.assignments u = none →
        p.2 ≤ u)) ∧
    List.Sorted (· < ·) (List.range 2) :=
  allocate_trace_first_unassigned singleEdgeGraph 2
    (sorted_lt_of_strLtB _ (by decide))

/-- Witness for C6 at spec scenario A. -/
theorem build_interference_graph_spec_witness :
    ∃ g, build_interference_graph scenarioACode = some g ∧
      g.keys.toFinset =
        ((scenarioACode.oplist.map Operation.destination ++
          (scenarioACode.oplist.map uses).flatten ++
          scenarioACode.live_before.headD [] ++
          scenarioACode.live_out).filter is_var).toFinset ∧
      ∀ v u, u ∈ g.get_neighbors v ↔
        (u ≠ v ∧ ((scenarioACode.oplist ≠ [] ∧
            u ∈ scenarioACode.live_before.headD [] ∧
            v ∈ scenarioACode.live_before.headD []) ∨
          ∃ s ∈ scenarioACode.live_after, u ∈ s ∧ v ∈ s)) :=
  build_interference_graph_spec scenarioACode rfl (by decide)

/-- Witness for C7 on the triangle graph with two registers (the search
fails and the assignments map is empty again). -/
theorem allocate_registers_failure_unwound_witness :
    (allocate_registers triangleGraph 2).2 = triangleGraph ∧
    (triangleGraph.assignments = [] →
      (allocate_registers triangleGraph 2).2.assignments = []) :=
  allocate_registers_failure_unwound triangleGraph 2 (by decide)

/-- Witness for C8 after one `add_edge` call on a two-node graph. -/
theorem interference_graph_symm_irrefl_witness :
    (∀ v, v ∉ (⟨[("a", ["b"]), ("b", ["a"])], []⟩ :
        InterferenceGraph).get_neighbors v) ∧
    (∀ u v, u ∈ (⟨[("a", ["b"]), ("b", ["a"])], []⟩ :
        InterferenceGraph).get_neighbors v ↔
      v ∈ (⟨[("a", ["b"]), ("b", ["a"])], []⟩ :
        InterferenceGraph).get_neighbors u) :=
  interference_graph_symm_irrefl ["a", "b"] [("a", "b")] _ (by decide)

/-- Witness for C9 on the triangle graph with two registers and a large
fuel budget. -/
theorem allocate_registers_terminates_witness :
    unassignedCount (triangleGraph.assign "a" 0) < unassignedCount triangleGraph ∧
    allocateFuel 2 9 triangleGraph = allocate_registers triangleGraph 2 :=
  ⟨(allocate_registers_terminates triangleGraph 2).1 "a" 0 (by decide),
   (allocate_registers_terminates triangleGraph 2).2 9 (by decide)⟩

/-- Witness for C10 on the graph built from spec scenario A. -/
theorem build_graph_node_order_witness :
    List.Sorted (· < ·)
      (⟨[("a", []), ("b", [])], []⟩ : InterferenceGraph).keys ∧
    ∀ A : List (String × Nat),
      ((InterferenceGraph.mk
          (⟨[("a", []), ("b", [])], []⟩ : InterferenceGraph).nodes A).get_unassigned_variable = none ↔
        ∀ v ∈ (⟨[("a", []), ("b", [])], []⟩ : InterferenceGraph).keys,
          dictGet A v ≠ none) ∧
      (∀ v, (InterferenceGraph.mk
          (⟨[("a", []), ("b", [])], []⟩ : InterferenceGraph).nodes A).get_unassigned_variable = some v →
        dictGet A v = none ∧
        v ∈ (⟨[("a", []), ("b", [])], []⟩ : InterferenceGraph).keys ∧
        ∀ u ∈ (⟨[("a", []), ("b", [])], []⟩ : InterferenceGraph).keys,
          dictGet A u = none → v ≤ u) :=
  build_graph_node_order scenarioACode _ (by decide)

-- ## The separate GraphColouring class does implement DSATUR

theorem selectFold_spec (g : InterferenceGraph) : ∀ (l : List String)
    (b : Option String) (r : String),
    l.foldl (selectStep g) b = some r →
    (b = some r ∨ r ∈ l) ∧
    (∀ x, b = some x → saturation g x < saturation g r ∨
      (saturation g x = saturation g r ∧ degree g x ≤ degree g r)) ∧
    (∀ u ∈ l, saturation g u < saturation g r ∨
      (saturation g u = saturation g r ∧ degree g u ≤ degree g r)) := by
  intro l
  induction l with
  | nil =>
    intro b r h
    simp only [List.foldl_nil] at h
    refine ⟨Or.inl h, ?_, by simp⟩
    intro x hx
    rw [h] at hx
    obtain rfl := Option.some.inj hx
    exact Or.inr ⟨rfl, le_refl _⟩
  | cons v vs ih =>
    intro b r h
    simp only [List.foldl_cons] at h
    obtain ⟨hmem, hb, hall⟩ := ih (selectStep g b v) r h
    have hv : saturation g v < saturation g r ∨
        (saturation g v = saturation g r ∧ degree g v ≤ degree g r) := by
      rcases hbb : b with _ | b0
      · refine hb v ?_
        rw [hbb]
        rfl
      · by_cases hbeat : saturation g b0 < saturation g v ∨
            (saturation g b0 = saturation g v ∧ degree g b0 < degree g v)
        · refine hb v ?_
          rw [hbb]
          simp [selectStep, hbeat]
        · have hb0r := hb b0 (by rw [hbb]; simp [selectStep, hbeat])
          rcases hb0r with h1 | ⟨h1, h2⟩ <;> omega
    refine ⟨?_, ?_, ?_⟩
    · rcases hmem with hsel | hin
      · rcases hbb : b with _ | b0
        · rw [hbb] at hsel
          have : v = r := Option.some.inj hsel
          exact Or.inr (this ▸ List.mem_cons_self v vs)
        · rw [hbb] at hsel
          by_cases hbeat : saturation g b0 < saturation g v ∨
              (saturation g b0 = saturation g v ∧ degree g b0 < degree g v)
          · have hvr : v = r := by
              have : selectStep g (some b0) v = some v := by
                simp [selectStep, hbeat]
              rw [this] at hsel
              exact Option.some.inj hsel
            exact Or.inr (hvr ▸ List.mem_cons_self v vs)
          · have hb0r : b0 = r := by
              have : selectStep g (some b0) v = some b0 := by
                simp [selectStep, hbeat]
              rw [this] at hsel
              exact Option.some.inj hsel
            exact Or.inl (by rw [hb0r])
      · exact Or.inr (List.mem_cons_of_mem _ hin)
    · intro x hx
      rcases hbb : b with _ | b0
      · rw [hbb] at hx
        exact absurd hx (by simp)
      · rw [hbb] at hx
        obtain rfl := Option.some.inj hx
        by_cases hbeat : saturation g b0 < saturation g v ∨
            (saturation g b0 = saturation g v ∧ degree g b0 < degree g v)
        · rcases hbeat with h1 | ⟨h1, h2⟩ <;> rcases hv with h3 | ⟨h3, h4⟩ <;> omega
        · refine hb b0 ?_
          rw [hbb]
          simp [selectStep, hbeat]
    · intro u hu
      rcases List.mem_cons.mp hu with rfl | hu
      · exact hv
      · exact hall u hu

/-- The node-selection rule described by C4 is the one of the separate
`GraphColouring` class: `_select_next_variable` returns an uncoloured
node of maximal saturation, ties broken by degree — but
`allocate_registers` never calls it. -/
theorem selectNextVariable_dsatur (g : InterferenceGraph) (v : String)
    (h : selectNextVariable g = some v) : DsaturChoice g v := by
  obtain ⟨hmem, _, hall⟩ := selectFold_spec g _ none v h
  have hvmem : v ∈ g.keys.filter (fun v => (dictGet g.assignments v).isNone) := by
    rcases hmem with h0 | h0
    · exact absurd h0 (by simp)
    · exact h0
  have hvfil := List.mem_filter.mp hvmem
  refine ⟨by simpa using hvfil.2, ?_⟩
  intro u hu hun
  exact hall u (List.mem_filter.mpr ⟨hu, by simp [hun]⟩)
